import Mathlib

/-!
Verification development for `gcontact-filter.py` (Google Contacts Filter).

The script's core is embedded shallowly: Python strings are `String`
(manipulated through their `List Char` data so that everything evaluates by
kernel reduction), rows are `List String`, the `tablib` dataset built by
`GoogleContact.parse` is a pair of the seen-identity-key tuple (`hash`) and
the ordered row list.  Fallible Python code (exceptions, `sys.exit`) is
embedded with `Except String`.  Every definition follows the corresponding
source function; the few places where behaviour of a library outside the
repository (Python's `eval`, `tablib`) had to be modelled are marked in the
doc comments.
-/

namespace GContact

/-- Decidable equality for `Except`, so that concrete runs of the embedded
fallible code can be checked by `decide`. -/
instance exceptDecEq {e a : Type} [DecidableEq e] [DecidableEq a] :
    DecidableEq (Except e a) := fun x y =>
  match x, y with
  | .ok v, .ok w =>
    decidable_of_iff (v = w) ⟨fun h => by rw [h], fun h => by injection h⟩
  | .error v, .error w =>
    decidable_of_iff (v = w) ⟨fun h => by rw [h], fun h => by injection h⟩
  | .ok _, .error _ => isFalse (fun h => by injection h)
  | .error _, .ok _ => isFalse (fun h => by injection h)

/-! ## Basic character and string helpers -/

/-- Whitespace characters removed by Python 2's `str.strip()`:
space, tab, newline, carriage return, vertical tab, form feed. -/
def pySpace (c : Char) : Bool :=
  c == ' ' || c == '\t' || c == '\n' || c == '\r' || c == '\x0b' || c == '\x0c'

/-- Python `value.strip()` on the character list of a string. -/
def pyStrip (l : List Char) : List Char :=
  ((l.dropWhile pySpace).reverse.dropWhile pySpace).reverse

/-- Truthiness of `value.strip()` (used as the blank-cell test in
`GoogleContactRow.has_fields`): a cell is blank iff stripping leaves nothing. -/
def isBlank (s : String) : Bool := (pyStrip s.toList).isEmpty

/-! ## `format_phone` (source lines 39-51) -/

/-- Characters kept by the loop `for char in (' ', '(', ')'): value = value.replace(char, '')`. -/
def keepChar (c : Char) : Bool := !(c == ' ' || c == '(' || c == ')')

/-- The three successive single-character `str.replace(char, '')` calls of
`format_phone`: all occurrences of space and both parentheses are removed. -/
def removeChars (l : List Char) : List Char := l.filter keepChar

/-- Embeds `re.sub('^0', '+33', value)`: the anchored pattern rewrites at most
one leading `0`. -/
def subLeadingZero : List Char → List Char
  | '0' :: rest => '+' :: '3' :: '3' :: rest
  | l => l

/-- Embeds `re.sub(':::0', ':::+33', value)`: every non-overlapping occurrence
of `:::0`, scanned left to right, becomes `:::+33`; replaced text is not
rescanned. -/
def replaceColons0 : List Char → List Char
  | ':' :: ':' :: ':' :: '0' :: rest => ':' :: ':' :: ':' :: '+' :: '3' :: '3' :: replaceColons0 rest
  | c :: rest => c :: replaceColons0 rest
  | [] => []

/-- Embeds `value.replace(':::', ' ::: ')`: every non-overlapping occurrence of
the join token, scanned left to right, gets single spaces re-inserted. -/
def spaceColons : List Char → List Char
  | ':' :: ':' :: ':' :: rest => ' ' :: ':' :: ':' :: ':' :: ' ' :: spaceColons rest
  | c :: rest => c :: spaceColons rest
  | [] => []

/-- `format_phone` on character lists, composing the four steps in source
order. -/
def formatPhoneL (l : List Char) : List Char :=
  spaceColons (replaceColons0 (subLeadingZero (removeChars l)))

/-- The module-level `format_phone` of the script. -/
def format_phone (s : String) : String := (formatPhoneL s.toList).asString

/-! ## `format_index` (source lines 54-58) -/

/-- One character of `re.sub('[^a-z]', '-', name)`: each character outside
`a`-`z` is replaced, individually, by a dash. -/
def dashNonLetter (c : Char) : Char :=
  if 'a' ≤ c ∧ c ≤ 'z' then c else '-'

/-- The module-level `format_index`: strip, lowercase, then replace every
non-letter character by `-`. -/
def format_index (s : String) : String :=
  (((pyStrip s.toList).map Char.toLower).map dashNonLetter).asString

/-! ## `merge_lists` (source lines 61-66) -/

/-- The module-level `merge_lists(src, dest)`.  `sys.exit` on a length
mismatch becomes `Except.error`; otherwise the list comprehension
`[d+' ::: '+s if s and d != s else d for s, d in zip(src, dest)]` is built. -/
def merge_lists (src dest : List String) : Except String (List String) :=
  if src.length ≠ dest.length then .error "Cannot merge rows of different size"
  else .ok ((src.zip dest).map fun sd =>
    if sd.1 ≠ "" ∧ sd.2 ≠ sd.1 then sd.2 ++ " ::: " ++ sd.1 else sd.2)

/-! ## Python's `str.title()` (used by `GoogleContactRow.format_names`) -/

/-- Python 2 `str.title()` on character lists: an alphabetic character is
uppercased when the previous character is not alphabetic and lowercased
otherwise; other characters pass through and reset the word state. -/
def titleL (prevAlpha : Bool) : List Char → List Char
  | [] => []
  | c :: cs =>
    if c.isAlpha then (if prevAlpha then c.toLower else c.toUpper) :: titleL true cs
    else c :: titleL false cs

/-- Python `value.title()`. -/
def pyTitle (s : String) : String := (titleL false s.toList).asString

/-! ## Header patterns (`select_fields` with `re.match`) -/

/-- `re.match(pattern, field)` for the literal alternation used by
`standard_cleanup` (the redundant `^` anchors fall away under `re.match`):
the header starts with one of the noise names. -/
def noiseHeader (h : String) : Bool :=
  ["Address", "Group Membership", "Website", "Relation",
   "Birthday", "Nickname", "Notes"].any (fun p => p.toList.isPrefixOf h.toList)

/-- `re.match('Name', field)`: the header starts with `Name`
(`has_name`'s field pattern). -/
def matchName (h : String) : Bool := "Name".toList.isPrefixOf h.toList

/-- Whether `Name` occurs anywhere in the list (for `re.match('.*Name.*', field)`,
whose leading `.*` makes it a containment test). -/
def hasNameInside : List Char → Bool
  | [] => false
  | c :: rest => "Name".toList.isPrefixOf (c :: rest) || hasNameInside rest

/-- `re.match('.*Name.*', field)` used by `format_names`. -/
def matchAnyName (h : String) : Bool := hasNameInside h.toList

/-- `re.match(p ++ '[0-9]+ - Value', field)` for a literal `p`: the header
starts with `p`, then one or more digits, then ` - Value`.  Taking the digits
greedily is equivalent to the regex since ` - Value` does not start with a
digit. -/
def matchNumberedValue (p : String) (h : String) : Bool :=
  p.toList.isPrefixOf h.toList &&
  (let rest := h.toList.drop p.toList.length
   !(rest.takeWhile Char.isDigit).isEmpty &&
   " - Value".toList.isPrefixOf (rest.dropWhile Char.isDigit))

/-- `re.match('Phone [0-9]+ - Value', field)` (`has_phone`'s field pattern). -/
def matchPhone (h : String) : Bool := matchNumberedValue "Phone " h

/-- `re.match('E-mail [0-9]+ - Value', field)` (`inspect_email`'s field
pattern). -/
def matchEmail (h : String) : Bool := matchNumberedValue "E-mail " h

/-! ## Row cell access (Python list indexing raises `IndexError`) -/

/-- Read `self._row[index]`; out-of-range indexing raises. -/
def getCell (cells : List String) (i : Nat) : Except String String :=
  match cells[i]? with
  | some c => .ok c
  | none => .error "IndexError"

/-- Write `self._row[index] = v`; out-of-range assignment raises. -/
def setCell (cells : List String) (i : Nat) (v : String) : Except String (List String) :=
  if i < cells.length then .ok (cells.set i v) else .error "IndexError"

/-- `self.headers.index(name)` (`ValueError` when the header is missing). -/
def findHeader (headers : List String) (name : String) : Except String Nat :=
  if name ∈ headers then .ok (headers.indexOf name) else .error "ValueError"

/-! ## The `eval`-built callback call of `has_fields` (source lines 100-102)

`has_fields` does not call the callback directly: it evaluates the Python
source text `format_phone("<cell>")` obtained by `'%s("%s")' % (callback,
self._row[index])`.  The model below embeds Python's lexing of the
double-quoted string literal; the escape sequences it decodes are the
single-character ones (`\\`, `\"`, `\'`, `\n`, `\t`, `\r`), an unrecognized
escape keeps its backslash (Python 2 behaviour), and the remaining escape
forms (octal and hex digits) as well as any code shape other than a single
well-formed call are conservatively mapped to failure. -/

/-- Decoding of one backslash escape `\c` inside a Python double-quoted string
literal (see the section comment for the modelled scope). -/
def escDecode (c : Char) : Option (List Char) :=
  if c = 'n' then some ['\n']
  else if c = 't' then some ['\t']
  else if c = 'r' then some ['\r']
  else if c = '\\' then some ['\\']
  else if c = '"' then some ['"']
  else if c = '\x27' then some ['\x27']
  else if c.isDigit || c = 'x' then none
  else some ['\\', c]

/-- Lex a Python double-quoted string literal body: returns the decoded
literal together with the text following the closing quote, or `none` on a
lexing error (unterminated literal, bad escape, raw newline). -/
def lexLiteral : List Char → Option (List Char × List Char)
  | [] => none
  | '"' :: rest => some ([], rest)
  | '\\' :: rest =>
    match rest with
    | [] => none
    | e :: rest' =>
      match escDecode e with
      | none => none
      | some d =>
        match lexLiteral rest' with
        | none => none
        | some (lit, after) => some (d ++ lit, after)
  | c :: rest =>
    if c = '\n' ∨ c = '\r' then none
    else
      match lexLiteral rest with
      | none => none
      | some (lit, after) => some (c :: lit, after)

/-- The fused step `self._row[index] = eval('%s("%s")' % ('format_phone', v))`:
the text after the opening quote is `v` followed by `")`. A successfully lexed
call applies `format_phone` to the decoded literal; everything else raises a
`SyntaxError`. -/
def evalFormatPhone (v : String) : Except String String :=
  match lexLiteral (v.toList ++ ['"', ')']) with
  | some (lit, [')']) => .ok (format_phone lit.asString)
  | _ => .error "SyntaxError"

/-! ## `GoogleContactRow` methods used by `parse` -/

/-- `clean_fields`: for every header matching the pattern, blank the cell at
`headers.index(field)`. -/
def clean_fields (headers : List String) (pat : String → Bool) (cells : List String) :
    Except String (List String) :=
  (headers.filter pat).foldlM (fun cs field => setCell cs (headers.indexOf field) "") cells

/-- `format_names`: for every header matching `.*Name.*`, title-case the cell
at `headers.index(field)`. -/
def format_names (headers : List String) (cells : List String) :
    Except String (List String) :=
  (headers.filter matchAnyName).foldlM
    (fun cs field => do
      let c ← getCell cs (headers.indexOf field)
      setCell cs (headers.indexOf field) (pyTitle c))
    cells

/-- `has_fields`: for every given field, when the cell at
`headers.index(field)` is non-blank, accumulate the tags and (when a callback
is registered) overwrite the cell with the `eval`-built `format_phone` call.
Returns the updated cells and the accumulated `valid_tags`. -/
def has_fields (headers : List String) (fields : List String) (tags : List String)
    (useCallback : Bool) (cells : List String) :
    Except String (List String × List String) :=
  fields.foldlM
    (fun acc field => do
      let i := headers.indexOf field
      let c ← getCell acc.1 i
      if isBlank c then .ok acc
      else if useCallback then do
        let c' ← evalFormatPhone c
        let cs' ← setCell acc.1 i c'
        .ok (cs', acc.2 ++ tags)
      else .ok (acc.1, acc.2 ++ tags))
    (cells, ([] : List String))

/-- The per-row pass of `GoogleContact.parse`: `standard_cleanup`,
`format_names`, then the taggers `has_name` (tag `name`, no callback) and
`has_phone` (tag `phone`, callback `format_phone`), with
`tags = list(set(tags))` embedded as first-occurrence deduplication. -/
def normalizeRow (headers : List String) (cells : List String) :
    Except String (List String × List String) := do
  let c1 ← clean_fields headers noiseHeader cells
  let c2 ← format_names headers c1
  let r1 ← has_fields headers (headers.filter matchName) ["name"] false c2
  let r2 ← has_fields headers (headers.filter matchPhone) ["phone"] true r1.1
  .ok (r2.1, (r1.2 ++ r2.2).dedup)

/-! ## `GoogleContact.parse` (source lines 290-356) -/

/-- State built by `parse`: the tuple of seen identity keys (`self.hash`) and
the `tablib` dataset rows, each row carrying its cells and tags. -/
structure PState where
  hash : List String
  rows : List (List String × List String)
deriving DecidableEq, Repr

/-- `data[i]` on the dataset. -/
def getRow (rows : List (List String × List String)) (i : Nat) :
    Except String (List String × List String) :=
  match rows[i]? with
  | some r => .ok r
  | none => .error "IndexError"

/-- Processing of one data row inside `parse`'s loop.  `tablib`'s
`Dataset.append` and `Dataset.__setitem__` both validate the cell count
against the header count (`InvalidDimensions`), and `__setitem__` wraps the
assigned list in a fresh `Row`, so a merged row loses its tags. -/
def processRow (headers : List String) (drop merge : Bool) (row : List String)
    (st : PState) : Except String PState := do
  let r ← normalizeRow headers row
  let ni ← findHeader headers "Name"
  let nameCell ← getCell r.1 ni
  let index := format_index nameCell
  if index = "" then .ok st
  else if index ∈ st.hash then
    if drop then .ok st
    else if merge then do
      let rowDst := st.hash.indexOf index
      let dst ← getRow st.rows rowDst
      let merged ← merge_lists r.1 dst.1
      if merged.length = headers.length then
        .ok ⟨st.hash, st.rows.set rowDst (merged, [])⟩
      else .error "InvalidDimensions"
    else if r.1.length = headers.length then
      .ok ⟨st.hash ++ [index], st.rows ++ [(r.1, r.2)]⟩
    else .error "InvalidDimensions"
  else if r.1.length = headers.length then
    .ok ⟨st.hash ++ [index], st.rows ++ [(r.1, r.2)]⟩
  else .error "InvalidDimensions"

/-- `GoogleContact.parse` over the already-decoded CSV records: the first
record becomes the headers, every later record runs through the per-row
pipeline. -/
def parse (csvRows : List (List String)) (drop merge : Bool) :
    Except String PState :=
  match csvRows with
  | [] => .ok ⟨[], []⟩
  | headers :: dataRows =>
    dataRows.foldlM (fun st row => processRow headers drop merge row st) ⟨[], []⟩

/-! ## Filter Engine -/

/-- Modelled from the spec: the Filter Engine (`GoogleContact.filter`
delegates to `tablib`'s `Dataset.filter` / `Row.has_tag`, which are not part
of `src/`): the new table holds exactly the rows whose tag set intersects the
requested tag list, in their original order. -/
def filterRows (filters : List String) (rows : List (List String × List String)) :
    List (List String × List String) :=
  rows.filter (fun r => r.2.any (fun t => t ∈ filters))

/-! ## `GoogleContactRow.inspect_email` (source lines 113-165) -/

/-- `row[index].split(":::")`. -/
def splitColons : List Char → List (List Char)
  | ':' :: ':' :: ':' :: rest => [] :: splitColons rest
  | c :: rest =>
    match splitColons rest with
    | p :: ps => (c :: p) :: ps
    | [] => [[c]]
  | [] => [[]]

/-- `[e.strip() for e in row[index].split(":::")]`. -/
def splitEmails (cell : String) : List String :=
  (splitColons cell.toList).map (fun e => (pyStrip e).asString)

/-- `' ::: '.join(values)`. -/
def joinColons : List String → String
  | [] => ""
  | [x] => x
  | x :: xs => x ++ " ::: " ++ joinColons xs

/-- The interactive keep/discard loop over one field's email values.  The
reviewer's `raw_input` answers are consumed from `inputs`; an exhausted list
is the `EOFError` end-of-input signal, which sets `abort` and breaks out,
discarding the remaining values (and, since a closed stdin stays closed,
leaving no input for any later prompt).  Returns the kept values and the
remaining input stream. -/
def reviewEmails : List String → List String → List String × List String
  | inputs, [] => ([], inputs)
  | [], _ :: _ => ([], [])
  | r :: rest, e :: es =>
    let k := reviewEmails rest es
    (if pyStrip r.toList = ['y'] then e :: k.1 else k.1, k.2)

/-- Treatment of one email cell by `inspect_email`: fewer than two parts of
the `:::` split leave the cell alone; otherwise the row is flagged
`has_multiple`, and in fix mode the review loop rewrites the cell to the kept
values joined by ` ::: `, or to `None` (embedded as `none`) when nothing was
kept.  Returns `((new cell, has multiple), remaining inputs)`. -/
def inspectCell (fix : Bool) (cell : String) (inputs : List String) :
    (Option String × Bool) × List String :=
  let emails := splitEmails cell
  if emails.length < 2 then ((some cell, false), inputs)
  else if !fix then ((some cell, true), inputs)
  else
    let k := reviewEmails inputs emails
    if k.1.length ≠ 0 then ((some (joinColons k.1), true), k.2)
    else ((none, true), k.2)

/-- `GoogleContactRow.get_name` read against the row's current cells:
`self._row[self.headers.index('Name')]`, raising `ValueError` when no header
is named `Name` and `IndexError` when that position is out of range; the
cell itself may hold the no-value marker, which Python happily formats into
the prompt. -/
def get_name (headers : List String) (cells : List (Option String)) :
    Except String (Option String) := do
  let ni ← findHeader headers "Name"
  match cells[ni]? with
  | some v => .ok v
  | none => .error "IndexError"

/-- `GoogleContactRow.inspect_email` over one row: every header matching the
email pattern is processed in order, threading the reviewer input stream.
Reading a cell already set to `None` would raise (`None.split`), and
out-of-range indices raise, as in Python.  On the fix path (two or more
parts and fix mode) the prompt and the closing log line interpolate
`self.get_name()`, so that lookup must succeed before any review happens;
it is evaluated once per field here since repeated calls are identical. -/
def inspectRow (headers : List String) (fix : Bool) (cells : List String)
    (inputs : List String) :
    Except String (List (Option String) × Bool × List String) :=
  (headers.filter matchEmail).foldlM
    (fun acc field => do
      let i := headers.indexOf field
      match acc.1[i]? with
      | none => .error "IndexError"
      | some none => .error "AttributeError"
      | some (some s) =>
        if 2 ≤ (splitEmails s).length ∧ fix = true then do
          let _ ← get_name headers acc.1
          let r := inspectCell fix s acc.2.2
          .ok (acc.1.set i r.1.1, acc.2.1 || r.1.2, r.2)
        else
          let r := inspectCell fix s acc.2.2
          .ok (acc.1.set i r.1.1, acc.2.1 || r.1.2, r.2))
    (cells.map some, false, inputs)

/-- The fix loop of `GoogleContact.inspect_email`: each filtered row is
rewritten by `inspectRow` in order, threading the reviewer input stream
across rows. -/
def inspectRun (headers : List String) (fix : Bool) (rows : List (List String))
    (inputs : List String) :
    Except String (List (List (Option String)) × List String) :=
  rows.foldlM
    (fun acc row => do
      let r ← inspectRow headers fix row acc.2
      .ok (acc.1 ++ [r.1], r.2.2))
    (([] : List (List (Option String))), inputs)

/-- Pointwise summary of the per-row pass at one column: blank a noise header,
title-case a `.*Name.*` header, then apply the phone callback to a non-blank
`Phone <n> - Value` cell.  Proved below to agree with `normalizeRow` on
well-formed rows. -/
def cellPass (h : String) (c : String) : String :=
  let c1 := if noiseHeader h = true then "" else c
  let c2 := if matchAnyName h = true then pyTitle c1 else c1
  if matchPhone h = true ∧ isBlank c2 = false then format_phone c2 else c2

/-! ## Predicates used to state theorems about the `eval`-built call -/

/-- A character that cannot influence Python's lexing of the interpolated
string literal: not a double quote, not a backslash, not a line break. -/
def cleanChar (c : Char) : Bool :=
  !(c == '"' || c == '\\' || c == '\n' || c == '\r')

/-- A cell value all of whose characters are `cleanChar`. -/
def cleanStr (s : String) : Bool := s.toList.all cleanChar

/-! ## Definitions written from the spec's wording, for comparison -/

/-- Modelled from the spec: helper for the identity key as the spec words it
(trim, lowercase, and collapse every RUN of non-letter characters into a
single separator), to be compared with the source's `format_index`. -/
def collapseAux (inRun : Bool) : List Char → List Char
  | [] => []
  | c :: rest =>
    if 'a' ≤ c ∧ c ≤ 'z' then c :: collapseAux false rest
    else if inRun then collapseAux true rest
    else '-' :: collapseAux true rest

/-- Modelled from the spec: every maximal run of non-letter characters becomes
one single separator. -/
def collapseRuns (l : List Char) : List Char := collapseAux false l

/-- Modelled from the spec: trimming, lowercasing, and collapsing every run of
non-letter characters to a single separator. -/
def specIdentityKey (s : String) : String :=
  (collapseRuns ((pyStrip s.toList).map Char.toLower)).asString

/-! # Theorems -/

/-! ## Character arithmetic lemmas -/

theorem char_toNat_ofNat (n : Nat) (h : n < 55296) : (Char.ofNat n).toNat = n := by
  rw [Char.ofNat, dif_pos (Or.inl (by exact_mod_cast h))]
  simp [Char.ofNatAux, Char.toNat, UInt32.toNat, BitVec.toNat_ofNatLt]

theorem char_eq_of_toNat {a b : Char} (h : a.toNat = b.toNat) : a = b := by
  apply Char.ext
  exact UInt32.toNat.inj h

theorem toUpper_eq_ite (c : Char) :
    c.toUpper = if 97 ≤ c.toNat ∧ c.toNat ≤ 122 then Char.ofNat (c.toNat - 32) else c := rfl

theorem toLower_eq_ite (c : Char) :
    c.toLower = if 65 ≤ c.toNat ∧ c.toNat ≤ 90 then Char.ofNat (c.toNat + 32) else c := rfl

theorem toNat_toUpper (c : Char) :
    c.toUpper.toNat = if 97 ≤ c.toNat ∧ c.toNat ≤ 122 then c.toNat - 32 else c.toNat := by
  rw [toUpper_eq_ite]
  split
  · next h => exact char_toNat_ofNat _ (by omega)
  · rfl

theorem toNat_toLower (c : Char) :
    c.toLower.toNat = if 65 ≤ c.toNat ∧ c.toNat ≤ 90 then c.toNat + 32 else c.toNat := by
  rw [toLower_eq_ite]
  split
  · next h =>
    have hv : c.toNat < 55296 := by
      have := c.val.toNat_lt_size
      have hval : c.val.toNat < 1114112 := c.valid.elim (fun h => by omega) (fun h => by omega)
      omega
    exact char_toNat_ofNat _ (by omega)
  · rfl

theorem toUpper_toUpper (c : Char) : c.toUpper.toUpper = c.toUpper := by
  apply char_eq_of_toNat
  rw [toNat_toUpper, toNat_toUpper]
  split_ifs <;> omega

theorem toLower_toLower (c : Char) : c.toLower.toLower = c.toLower := by
  apply char_eq_of_toNat
  rw [toNat_toLower, toNat_toLower]
  split_ifs <;> omega

theorem toLower_toUpper (c : Char) : c.toUpper.toLower = c.toLower := by
  apply char_eq_of_toNat
  rw [toNat_toLower, toNat_toLower, toNat_toUpper]
  split_ifs <;> omega

theorem isAlpha_iff_toNat (c : Char) :
    c.isAlpha = true ↔ (65 ≤ c.toNat ∧ c.toNat ≤ 90) ∨ (97 ≤ c.toNat ∧ c.toNat ≤ 122) := by
  simp only [Char.isAlpha, Char.isUpper, Char.isLower, Bool.or_eq_true, Bool.and_eq_true,
    decide_eq_true_eq]
  constructor
  · rintro (⟨h1, h2⟩ | ⟨h1, h2⟩)
    · exact Or.inl ⟨h1, h2⟩
    · exact Or.inr ⟨h1, h2⟩
  · rintro (⟨h1, h2⟩ | ⟨h1, h2⟩)
    · exact Or.inl ⟨h1, h2⟩
    · exact Or.inr ⟨h1, h2⟩

theorem isAlpha_toUpper (c : Char) : c.toUpper.isAlpha = c.isAlpha := by
  rcases hb : c.isAlpha with _ | _
  · rcases hb2 : c.toUpper.isAlpha with _ | _
    · rfl
    · exfalso
      rw [isAlpha_iff_toNat, toNat_toUpper] at hb2
      have hbn := (not_iff_not.mpr (isAlpha_iff_toNat c)).mp (by simp [hb])
      split_ifs at hb2 <;> omega
  · rcases hb2 : c.toUpper.isAlpha with _ | _
    · exfalso
      rw [isAlpha_iff_toNat] at hb
      have hbn := (not_iff_not.mpr (isAlpha_iff_toNat c.toUpper)).mp (by simp [hb2])
      rw [toNat_toUpper] at hbn
      split_ifs at hbn <;> omega
    · rfl

theorem isAlpha_toLower (c : Char) : c.toLower.isAlpha = c.isAlpha := by
  rcases hb : c.isAlpha with _ | _
  · rcases hb2 : c.toLower.isAlpha with _ | _
    · rfl
    · exfalso
      rw [isAlpha_iff_toNat, toNat_toLower] at hb2
      have hbn := (not_iff_not.mpr (isAlpha_iff_toNat c)).mp (by simp [hb])
      split_ifs at hb2 <;> omega
  · rcases hb2 : c.toLower.isAlpha with _ | _
    · exfalso
      rw [isAlpha_iff_toNat] at hb
      have hbn := (not_iff_not.mpr (isAlpha_iff_toNat c.toLower)).mp (by simp [hb2])
      rw [toNat_toLower] at hbn
      split_ifs at hbn <;> omega
    · rfl

theorem char_beq_iff_toNat (c d : Char) : (c == d) = (c.toNat == d.toNat) := by
  rcases h : c == d with _ | _
  · rcases h2 : c.toNat == d.toNat with _ | _
    · rfl
    · exfalso
      exact absurd (char_eq_of_toNat (by simpa using h2)) (by simpa using h)
  · have : c = d := by simpa using h
    subst this
    simp

theorem pySpace_toUpper (c : Char) : pySpace c.toUpper = pySpace c := by
  simp only [pySpace, char_beq_iff_toNat, toNat_toUpper]
  split_ifs with h
  · have h32 : (' ' : Char).toNat = 32 := rfl
    have h9 : ('\t' : Char).toNat = 9 := rfl
    have h10 : ('\n' : Char).toNat = 10 := rfl
    have h13 : ('\r' : Char).toNat = 13 := rfl
    have h11 : ('\x0b' : Char).toNat = 11 := rfl
    have h12 : ('\x0c' : Char).toNat = 12 := rfl
    rw [h32, h9, h10, h13, h11, h12]
    have e1 : (c.toNat - 32 == 32) = false := by simp; omega
    have e2 : (c.toNat - 32 == 9) = false := by simp; omega
    have e3 : (c.toNat - 32 == 10) = false := by simp only [beq_eq_false_iff_ne, ne_eq]; omega
    have e4 : (c.toNat - 32 == 13) = false := by simp only [beq_eq_false_iff_ne, ne_eq]; omega
    have e5 : (c.toNat - 32 == 11) = false := by simp; omega
    have e6 : (c.toNat - 32 == 12) = false := by simp; omega
    have f1 : (c.toNat == 32) = false := by simp; omega
    have f2 : (c.toNat == 9) = false := by simp; omega
    have f3 : (c.toNat == 10) = false := by simp only [beq_eq_false_iff_ne, ne_eq]; omega
    have f4 : (c.toNat == 13) = false := by simp only [beq_eq_false_iff_ne, ne_eq]; omega
    have f5 : (c.toNat == 11) = false := by simp; omega
    have f6 : (c.toNat == 12) = false := by simp; omega
    rw [e1, e2, e3, e4, e5, e6, f1, f2, f3, f4, f5, f6]
  · rfl

/-! ## `format_phone` idempotence chain -/

theorem removeChars_spaceColons (l : List Char) :
    removeChars (spaceColons l) = removeChars l := by
  induction l using spaceColons.induct with
  | case1 rest ih =>
    simp only [spaceColons, removeChars] at *
    simp [List.filter, keepChar, ih]
  | case2 c rest hne ih =>
    simp only [spaceColons, removeChars] at *
    simp [List.filter_cons, ih]
  | case3 => rfl

theorem removeChars_idem (l : List Char) :
    removeChars (removeChars l) = removeChars l := by
  simp [removeChars, List.filter_filter]

theorem subLeadingZero_eq_of_ne (l : List Char) (h : ∀ rest, l ≠ '0' :: rest) :
    subLeadingZero l = l := by
  rw [subLeadingZero.eq_def]
  split
  · next rest => exact absurd rfl (h rest)
  · rfl

theorem mem_subLeadingZero {c : Char} {l : List Char} (h : c ∈ subLeadingZero l) :
    c ∈ l ∨ c = '+' ∨ c = '3' := by
  by_cases hz : ∀ rest, l ≠ '0' :: rest
  · rw [subLeadingZero_eq_of_ne l hz] at h
    exact Or.inl h
  · push_neg at hz
    obtain ⟨rest, hrest⟩ := hz
    subst hrest
    simp only [subLeadingZero, List.mem_cons] at h
    rcases h with h | h | h | h
    · exact Or.inr (Or.inl h)
    · exact Or.inr (Or.inr h)
    · exact Or.inr (Or.inr h)
    · exact Or.inl (List.mem_cons_of_mem _ h)

theorem mem_replaceColons0 {c : Char} {l : List Char} (h : c ∈ replaceColons0 l) :
    c ∈ l ∨ c = '+' ∨ c = '3' ∨ c = ':' := by
  induction l using replaceColons0.induct with
  | case1 rest ih =>
    simp only [replaceColons0, List.mem_cons] at h
    rcases h with h | h | h | h | h | h | h
    all_goals first
      | exact Or.inr (by simp [h])
      | (rcases ih h with h' | h' | h' | h'
         · exact Or.inl (by simp [h'])
         · exact Or.inr (Or.inl h')
         · exact Or.inr (Or.inr (Or.inl h'))
         · exact Or.inr (Or.inr (Or.inr h')))
  | case2 c' rest hne ih =>
    simp only [replaceColons0, List.mem_cons] at h
    rcases h with h | h
    · exact Or.inl (by simp [h])
    · rcases ih h with h' | h' | h' | h'
      · exact Or.inl (by simp [h'])
      · exact Or.inr (Or.inl h')
      · exact Or.inr (Or.inr (Or.inl h'))
      · exact Or.inr (Or.inr (Or.inr h'))
  | case3 => exact Or.inl h

theorem keepChar_plus : keepChar '+' = true := rfl

theorem removeChars_eq_self_of_all {l : List Char} (h : ∀ c ∈ l, keepChar c = true) :
    removeChars l = l :=
  List.filter_eq_self.mpr h

theorem removeChars_all {l : List Char} : ∀ c ∈ removeChars l, keepChar c = true := by
  intro c hc
  exact (List.mem_filter.mp hc).2

theorem phoneCore_all_keep (l : List Char) :
    ∀ c ∈ replaceColons0 (subLeadingZero (removeChars l)), keepChar c = true := by
  intro c hc
  rcases mem_replaceColons0 hc with h | h | h | h
  · rcases mem_subLeadingZero h with h' | h' | h'
    · exact removeChars_all _ h'
    · rw [h']; rfl
    · rw [h']; rfl
  · rw [h]; rfl
  · rw [h]; rfl
  · rw [h]; rfl

theorem head_subLeadingZero_ne_zero (l : List Char) :
    (subLeadingZero l).head? ≠ some '0' := by
  cases l with
  | nil => simp [subLeadingZero]
  | cons c rest =>
    by_cases hc : c = '0'
    · subst hc
      simp [subLeadingZero]
    · rw [subLeadingZero_eq_of_ne (c :: rest)
        (fun r hr => hc (by simpa using congrArg List.head? hr))]
      simpa using hc

theorem head_replaceColons0_ne_zero {l : List Char} (h : l.head? ≠ some '0') :
    (replaceColons0 l).head? ≠ some '0' := by
  rw [replaceColons0.eq_def]
  split
  · simp
  · next c rest hne => simpa using h
  · simp

theorem replaceColons0_cons_of_ne (c : Char) (rest : List Char)
    (h : ∀ r, ¬(c = ':' ∧ rest = ':' :: ':' :: '0' :: r)) :
    replaceColons0 (c :: rest) = c :: replaceColons0 rest := by
  rw [replaceColons0.eq_def]
  split
  · next r heq =>
    injection heq with h1 h2
    exact absurd ⟨h1, h2⟩ (h r)
  · next c' r' heq =>
    injection heq with h1 h2
    rw [h1, h2]
  · next heq => exact absurd heq (by simp)

theorem head0_replaceColons0 {l : List Char} (h : (replaceColons0 l).head? = some '0') :
    l.head? = some '0' := by
  rw [replaceColons0.eq_def] at h
  split at h
  · simp at h
  · simpa using h
  · simp at h

theorem take2_replaceColons0 {l : List Char} (h : (replaceColons0 l).take 2 = [':', '0']) :
    l.take 2 = [':', '0'] := by
  match l with
  | [] => simp [replaceColons0] at h
  | c :: rest =>
    by_cases hm : ∃ r, c = ':' ∧ rest = ':' :: ':' :: '0' :: r
    · obtain ⟨r, hc, hr⟩ := hm
      subst hc; subst hr
      simp [replaceColons0] at h
    · rw [replaceColons0_cons_of_ne c rest (fun r hr => hm ⟨r, hr⟩)] at h
      simp only [List.take_succ_cons, List.cons.injEq] at h ⊢
      refine ⟨h.1, ?_⟩
      have h0 : (replaceColons0 rest).head? = some '0' := by
        rcases hl : replaceColons0 rest with _ | ⟨d, t⟩
        · rw [hl] at h; simp at h
        · rw [hl] at h
          simp only [List.take_succ_cons, List.take_zero, List.cons.injEq, and_true] at h
          simp [hl, h.2]
      have := head0_replaceColons0 h0
      rcases rest with _ | ⟨d, t⟩
      · simp at this
      · simp at this
        simp [this]

theorem take3_replaceColons0 {l : List Char} (h : (replaceColons0 l).take 3 = [':', ':', '0']) :
    l.take 3 = [':', ':', '0'] := by
  match l with
  | [] => simp [replaceColons0] at h
  | c :: rest =>
    by_cases hm : ∃ r, c = ':' ∧ rest = ':' :: ':' :: '0' :: r
    · obtain ⟨r, hc, hr⟩ := hm
      subst hc; subst hr
      simp [replaceColons0] at h
    · rw [replaceColons0_cons_of_ne c rest (fun r hr => hm ⟨r, hr⟩)] at h
      simp only [List.take_succ_cons, List.cons.injEq] at h ⊢
      refine ⟨h.1, ?_⟩
      exact take2_replaceColons0 h.2

theorem take3_eq_cons {l : List Char} {a b c : Char} (h : l.take 3 = [a, b, c]) :
    ∃ t, l = a :: b :: c :: t := by
  match l with
  | [] => simp at h
  | [x] => simp at h
  | [x, y] => simp at h
  | x :: y :: z :: t =>
    simp only [List.take_succ_cons, List.take_zero, List.cons.injEq, and_true] at h
    exact ⟨t, by rw [h.1, h.2.1, h.2.2]⟩

theorem replaceColons0_idem (l : List Char) :
    replaceColons0 (replaceColons0 l) = replaceColons0 l := by
  induction l using replaceColons0.induct with
  | case1 rest ih =>
    show ':' :: ':' :: ':' :: '+' :: '3' :: '3' :: replaceColons0 (replaceColons0 rest)
       = ':' :: ':' :: ':' :: '+' :: '3' :: '3' :: replaceColons0 rest
    rw [ih]
  | case2 c rest hne ih =>
    have hcons : replaceColons0 (c :: rest) = c :: replaceColons0 rest :=
      replaceColons0_cons_of_ne c rest (fun r hr => hne r hr.1 hr.2)
    rw [hcons]
    have hout : ∀ r, ¬(c = ':' ∧ replaceColons0 rest = ':' :: ':' :: '0' :: r) := by
      rintro r ⟨hc, hr⟩
      have h3 : (replaceColons0 rest).take 3 = [':', ':', '0'] := by rw [hr]; rfl
      obtain ⟨t, ht⟩ := take3_eq_cons (take3_replaceColons0 h3)
      exact hne t hc ht
    rw [replaceColons0_cons_of_ne c (replaceColons0 rest) hout, ih]
  | case3 => rfl

theorem formatPhoneL_idem (l : List Char) :
    formatPhoneL (formatPhoneL l) = formatPhoneL l := by
  unfold formatPhoneL
  set M := replaceColons0 (subLeadingZero (removeChars l)) with hM
  have h1 : removeChars (spaceColons M) = M := by
    rw [removeChars_spaceColons]
    exact removeChars_eq_self_of_all (hM ▸ phoneCore_all_keep l)
  rw [h1]
  have hhead : M.head? ≠ some '0' :=
    head_replaceColons0_ne_zero (head_subLeadingZero_ne_zero _)
  have h2 : subLeadingZero M = M :=
    subLeadingZero_eq_of_ne M
      (fun r hr => hhead (by rw [hr]; rfl))
  rw [h2, hM, replaceColons0_idem]

theorem toList_asString (l : List Char) : (List.asString l).toList = l := rfl

theorem format_phone_idem (s : String) :
    format_phone (format_phone s) = format_phone s := by
  unfold format_phone
  rw [toList_asString, formatPhoneL_idem]

/-! ## Title-case idempotence -/

theorem titleL_idem (l : List Char) : ∀ b, titleL b (titleL b l) = titleL b l := by
  induction l with
  | nil => intro b; rfl
  | cons c cs ih =>
    intro b
    by_cases ha : c.isAlpha
    · rcases b with _ | _
      · simp only [titleL, ha, if_true, Bool.false_eq_true, if_false]
        rw [if_pos (by rw [isAlpha_toUpper]; exact ha)]
        rw [toUpper_toUpper, ih true]
      · simp only [titleL, ha, if_true]
        rw [if_pos (by rw [isAlpha_toLower]; exact ha)]
        rw [toLower_toLower, ih true]
    · simp only [titleL, ha, if_false, Bool.false_eq_true]
      rw [ih false]

theorem pyTitle_idem (s : String) : pyTitle (pyTitle s) = pyTitle s := by
  unfold pyTitle
  rw [toList_asString, titleL_idem]

/-! ## Identity-key lemmas -/

theorem pySpace_comp_toUpper : (fun c => pySpace (Char.toUpper c)) = pySpace :=
  funext pySpace_toUpper

theorem pyStrip_map_toUpper (l : List Char) :
    pyStrip (l.map Char.toUpper) = (pyStrip l).map Char.toUpper := by
  unfold pyStrip
  rw [List.dropWhile_map, ← List.map_reverse, List.dropWhile_map, ← List.map_reverse]
  simp only [Function.comp_def, pySpace_comp_toUpper]

theorem format_index_map_toUpper (s : String) :
    format_index ((s.toList.map Char.toUpper).asString) = format_index s := by
  unfold format_index
  rw [toList_asString, pyStrip_map_toUpper, List.map_map, List.map_map, List.map_map]
  congr 1
  apply List.map_congr_left
  intro c _
  simp only [Function.comp_apply, toLower_toUpper]

/-! ## Lexing of the interpolated call for clean values -/

theorem lexLiteral_clean (l : List Char) (h : ∀ c ∈ l, cleanChar c = true) :
    lexLiteral (l ++ ['"', ')']) = some (l, [')']) := by
  induction l with
  | nil => rfl
  | cons c rest ih =>
    have hc : cleanChar c = true := h c (List.mem_cons_self c rest)
    have hq : c ≠ '"' := by intro hh; rw [hh] at hc; exact absurd hc (by decide)
    have hb : c ≠ '\\' := by intro hh; rw [hh] at hc; exact absurd hc (by decide)
    have hn : c ≠ '\n' := by intro hh; rw [hh] at hc; exact absurd hc (by decide)
    have hr : c ≠ '\r' := by intro hh; rw [hh] at hc; exact absurd hc (by decide)
    have hrest := ih (fun d hd => h d (List.mem_cons_of_mem c hd))
    rw [List.cons_append, lexLiteral.eq_def]
    split
    · next heq => simp at heq
    · next r heq => exact absurd (by simpa using congrArg List.head? heq) hq
    · next r heq => exact absurd (by simpa using congrArg List.head? heq) hb
    · next c2 r2 hq2 hb2 heq =>
      injection heq with h1 h2
      subst h2
      subst h1
      rw [if_neg (by simp [hn, hr]), hrest]

theorem asString_toList (s : String) : (s.toList).asString = s := rfl

theorem evalFormatPhone_clean (v : String) (h : cleanStr v = true) :
    evalFormatPhone v = .ok (format_phone v) := by
  unfold evalFormatPhone
  rw [lexLiteral_clean v.toList (by simpa [cleanStr, List.all_eq_true] using h)]
  show Except.ok (format_phone v.toList.asString) = Except.ok (format_phone v)
  rw [asString_toList]

/-! ## Claim C10 -/

/-- Claim C10 counterexample: the cell value consisting of a backslash
followed by a dash contains a backslash, yet the `eval`-built step does not
raise: the unrecognized escape keeps its backslash, so the step returns
exactly `format_phone` of the value, refuting the claim that every
quote- or backslash-carrying value makes the step raise. -/
theorem C10_counterexample :
    ('\\' ∈ "\\-".toList) ∧ evalFormatPhone "\\-" = .ok (format_phone "\\-") :=
  ⟨by decide, by decide⟩

/-- Claim C10 (amended): the fused tagging/normalization step evaluates a code
expression built by interpolating the raw cell text into a quoted string, so
it is not a total function application: for every value free of double
quotes, backslashes and line breaks it returns `format_phone` of the value,
while a double quote can break the string literal and raise a syntax error,
as the concrete value `0"1` does. -/
theorem C10_eval_interpolation :
    (∀ v : String, cleanStr v = true → evalFormatPhone v = .ok (format_phone v)) ∧
    evalFormatPhone "0\"1" = .error "SyntaxError" :=
  ⟨evalFormatPhone_clean, by decide⟩

/-- Witness for the amended claim C10 at a concrete clean phone value. -/
theorem C10_eval_interpolation_witness :
    cleanStr "0601020304" = true ∧
    evalFormatPhone "0601020304" = .ok (format_phone "0601020304") :=
  ⟨by decide, C10_eval_interpolation.1 "0601020304" (by decide)⟩

/-! ## Claim C2 -/

/-- Claim C2 counterexample: on the name `a  b` (two spaces) the source's
`format_index` keeps one dash per non-letter character, giving `a--b`,
whereas the claimed collapse of every run of non-letter characters into a
single separator would give `a-b`; the two disagree. -/
theorem C2_counterexample :
    format_index "a  b" = "a--b" ∧ specIdentityKey "a  b" = "a-b" ∧
    format_index "a  b" ≠ specIdentityKey "a  b" :=
  ⟨by decide, by decide, by decide⟩

/-- Claim C2 (amended): the identity key is a function of the name alone,
computed by trimming, lowercasing, and replacing each individual non-letter
character with a separator (runs are kept, one dash per character, as
`a  b ↦ a--b` shows); it is insensitive to case, and the names `O'Brien `
and `o brien` both map to the key `o-brien`. -/
theorem C2_identity_key :
    (∀ s : String, format_index ((s.toList.map Char.toUpper).asString) = format_index s) ∧
    format_index "O\x27Brien " = "o-brien" ∧ format_index "o brien" = "o-brien" ∧
    format_index "a  b" = "a--b" :=
  ⟨format_index_map_toUpper, by decide, by decide, by decide⟩

/-! ## Claim C1 -/

/-- Claim C1 counterexample: in merge mode on the spec's scenario the single
output row's name cell is ` John Doe  ::: John Doe` (the first row's name
keeps its surrounding blanks after title-casing, so the incoming `John Doe`
differs and is concatenated), not `John Doe` as the claim states. -/
theorem C1_counterexample :
    parse [["Name", "Phone 1 - Value"],
           [" john doe ", "0601020304"],
           ["John Doe", ""]] false true =
      .ok ⟨["john-doe"], [([" John Doe  ::: John Doe", "+33601020304"], [])]⟩ ∧
    " John Doe  ::: John Doe" ≠ "John Doe" :=
  ⟨by decide, by decide⟩

/-- Claim C1 (amended): both rows of the scenario share the identity key
`john-doe`; drop mode keeps exactly the first row, title-cased to
` John Doe ` with the phone reformatted to `+33601020304`; merge mode keeps
exactly one row whose phone cell is `+33601020304` but whose name cell is
` John Doe  ::: John Doe`, since the existing title-cased name still carries
its surrounding blanks and therefore differs from the incoming name. -/
theorem C1_scenario :
    format_index " john doe " = "john-doe" ∧ format_index "John Doe" = "john-doe" ∧
    parse [["Name", "Phone 1 - Value"],
           [" john doe ", "0601020304"],
           ["John Doe", ""]] true false =
      .ok ⟨["john-doe"], [([" John Doe ", "+33601020304"], ["name", "phone"])]⟩ ∧
    parse [["Name", "Phone 1 - Value"],
           [" john doe ", "0601020304"],
           ["John Doe", ""]] false true =
      .ok ⟨["john-doe"], [([" John Doe  ::: John Doe", "+33601020304"], [])]⟩ :=
  ⟨by decide, by decide, by decide, by decide⟩

/-! ## Claim C9 -/

/-- Claim C9: the loader is claimed to fail hard on any arity mismatch, but
`parse` performs no such check itself: the one-cell row ` ` under the
two-column header `Name, Extra` is silently discarded for its empty identity
key and the load completes without any error, so the mandated
`MalformedRowError` never happens. -/
theorem C9_missing_arity_check :
    parse [["Name", "Extra"], [" "]] false false = .ok ⟨[], []⟩ := by decide

/-! ## Claim C8 counterexample -/

/-- Claim C8 counterexample: in keep-both mode two rows named `Ann` leave the
key `ann` recorded twice in the seen-key tuple (`self.hash += (index,)` runs
again for the duplicate), refuting the claim that the key is recorded only
once. -/
theorem C8_counterexample :
    parse [["Name"], ["Ann"], ["Ann"]] false false =
      .ok ⟨["ann", "ann"], [(["Ann"], ["name"]), (["Ann"], ["name"])]⟩ ∧
    (["ann", "ann"] : List String).count "ann" ≠ 1 :=
  ⟨by decide, by decide⟩

/-! ## Claim C3 -/

/-- Claim C3: merging an incoming duplicate row `src` into the first-seen row
`dest` of the same length never raises and combines each column position as:
when the incoming cell is non-empty and differs from the existing cell the
result is `existing ::: incoming`, otherwise the existing cell is kept; a
length mismatch is the fatal configuration error. -/
theorem C3_merge_lists (src dest : List String) :
    (src.length = dest.length →
      ∃ out, merge_lists src dest = .ok out ∧ out.length = src.length ∧
        ∀ i, i < out.length →
          out.getD i "" = (if src.getD i "" ≠ "" ∧ dest.getD i "" ≠ src.getD i ""
                           then dest.getD i "" ++ " ::: " ++ src.getD i ""
                           else dest.getD i "")) ∧
    (src.length ≠ dest.length →
      merge_lists src dest = .error "Cannot merge rows of different size") := by
  constructor
  · intro hlen
    refine ⟨_, by rw [merge_lists, if_neg (by omega)], ?_, ?_⟩
    · simp [List.length_zip, hlen]
    · intro i hi
      have hlz : ((src.zip dest).map fun sd =>
          if sd.1 ≠ "" ∧ sd.2 ≠ sd.1 then sd.2 ++ " ::: " ++ sd.1 else sd.2).length =
          src.length := by simp [List.length_zip, hlen]
      rw [hlz] at hi
      have hiz : i < (src.zip dest).length := by simp [List.length_zip, hlen]; omega
      have his : i < src.length := hi
      have hid : i < dest.length := by omega
      rw [List.getD_eq_getElem?_getD,
        List.getElem?_eq_getElem (by simpa [List.length_zip, hlen] using hi),
        Option.getD_some, List.getElem_map, List.getElem_zip]
      rw [List.getD_eq_getElem?_getD src, List.getElem?_eq_getElem his, Option.getD_some,
        List.getD_eq_getElem?_getD dest, List.getElem?_eq_getElem hid, Option.getD_some]
  · intro hlen
    rw [merge_lists, if_pos hlen]

/-- Witness for claim C3 at a concrete pair of equal-length rows. -/
theorem C3_merge_lists_witness :
    ∃ out, merge_lists ["John Doe", ""] [" John Doe ", "+33601020304"] = .ok out ∧
      out.length = 2 ∧
      ∀ i, i < out.length →
        out.getD i "" =
          (if (["John Doe", ""] : List String).getD i "" ≠ "" ∧
              ([" John Doe ", "+33601020304"] : List String).getD i "" ≠
                (["John Doe", ""] : List String).getD i ""
           then ([" John Doe ", "+33601020304"] : List String).getD i "" ++ " ::: " ++
                (["John Doe", ""] : List String).getD i ""
           else ([" John Doe ", "+33601020304"] : List String).getD i "") :=
  (C3_merge_lists ["John Doe", ""] [" John Doe ", "+33601020304"]).1 (by decide)

/-! ## Email reconciliation lemmas -/

theorem reviewEmails_kept (inputs emails : List String) :
    (reviewEmails inputs emails).1 =
      (emails.zip inputs).filterMap
        (fun p => if pyStrip p.2.toList = ['y'] then some p.1 else none) := by
  induction emails generalizing inputs with
  | nil => simp [reviewEmails]
  | cons e es ih =>
    cases inputs with
    | nil => simp [reviewEmails]
    | cons r rest =>
      simp only [reviewEmails, List.zip_cons_cons, List.filterMap_cons]
      split
      · next hy => simp [ih]
      · next hy => simp [ih]

theorem reviewEmails_leftover {inputs emails : List String}
    (h : inputs.length < emails.length) : (reviewEmails inputs emails).2 = [] := by
  induction emails generalizing inputs with
  | nil => simp at h
  | cons e es ih =>
    cases inputs with
    | nil => rfl
    | cons r rest =>
      show (reviewEmails rest es).2 = []
      exact ih (by simpa using h)

theorem except_bind_ok {e a b : Type} (x : a) (f : a → Except e b) :
    ((Except.ok x : Except e a) >>= f) = f x := rfl

theorem get_name_ok (headers : List String) (cs : List (Option String))
    (hnm : "Name" ∈ headers) (hlen : cs.length = headers.length) :
    ∃ v, get_name headers cs = .ok v := by
  have hi : headers.indexOf "Name" < headers.length := List.indexOf_lt_length.mpr hnm
  have hic : headers.indexOf "Name" < cs.length := by omega
  refine ⟨cs[headers.indexOf "Name"], ?_⟩
  simp only [get_name, findHeader, if_pos hnm, except_bind_ok,
    List.getElem?_eq_getElem hic]

theorem inspectFold_ok (headers : List String) (fields : List String) (fix : Bool)
    (hnm : "Name" ∈ headers) :
    ∀ (cs : List (Option String)) (mult : Bool) (inputs : List String),
    fields.Nodup → (∀ f ∈ fields, f ∈ headers) →
    cs.length = headers.length →
    (∀ f ∈ fields, ∃ s, cs[headers.indexOf f]? = some (some s)) →
    ∃ out mult2 rem,
      fields.foldlM
        (fun acc field => do
          let i := headers.indexOf field
          match acc.1[i]? with
          | none => Except.error "IndexError"
          | some none => Except.error "AttributeError"
          | some (some s) =>
            if 2 ≤ (splitEmails s).length ∧ fix = true then do
              let _ ← get_name headers acc.1
              let r := inspectCell fix s acc.2.2
              Except.ok (acc.1.set i r.1.1, acc.2.1 || r.1.2, r.2)
            else
              let r := inspectCell fix s acc.2.2
              Except.ok (acc.1.set i r.1.1, acc.2.1 || r.1.2, r.2))
        (cs, mult, inputs) = .ok (out, mult2, rem) ∧ out.length = cs.length := by
  induction fields with
  | nil =>
    intro cs mult inputs _ _ _ _
    exact ⟨cs, mult, inputs, rfl, rfl⟩
  | cons f fs ih =>
    intro cs mult inputs hnd hsub hlen hcell
    obtain ⟨s, hs⟩ := hcell f (List.mem_cons_self f fs)
    have hi : headers.indexOf f < headers.length :=
      List.indexOf_lt_length.mpr (hsub f (List.mem_cons_self f fs))
    obtain ⟨v, hv⟩ := get_name_ok headers cs hnm hlen
    rw [List.foldlM_cons]
    simp only [hs]
    set r := inspectCell fix s inputs with hr
    have hlen2 : (cs.set (headers.indexOf f) r.1.1).length = headers.length := by
      simpa using hlen
    obtain ⟨out, mult2, rem, hfold, hlen3⟩ :=
      ih (cs.set (headers.indexOf f) r.1.1) (mult || r.1.2) r.2
        (List.Nodup.of_cons hnd)
        (fun g hg => hsub g (List.mem_cons_of_mem f hg))
        hlen2
        (fun g hg => by
          obtain ⟨t, ht⟩ := hcell g (List.mem_cons_of_mem f hg)
          have hfg : g ≠ f := by
            intro hgf
            exact (List.nodup_cons.mp hnd).1 (hgf ▸ hg)
          have hig : headers.indexOf g ≠ headers.indexOf f := by
            intro hii
            have hg2 : headers.indexOf g < headers.length :=
              List.indexOf_lt_length.mpr (hsub g (List.mem_cons_of_mem f hg))
            have e1 : headers[headers.indexOf g]? = some g := by
              rw [List.getElem?_eq_getElem hg2, List.getElem_indexOf hg2]
            have e2 : headers[headers.indexOf f]? = some f := by
              rw [List.getElem?_eq_getElem hi, List.getElem_indexOf hi]
            rw [hii, e2] at e1
            exact hfg (Option.some.inj e1.symm)
          exact ⟨t, by rw [List.getElem?_set_ne (fun hh => hig hh.symm), ht]⟩)
    refine ⟨out, mult2, rem, ?_, by rw [hlen3]; simp⟩
    by_cases hcond : 2 ≤ (splitEmails s).length ∧ fix = true
    · simp only [if_pos hcond, hv, except_bind_ok]
      exact hfold
    · simp only [if_neg hcond]
      exact hfold

theorem inspectRow_ok (headers : List String) (fix : Bool) (cells : List String)
    (inputs : List String) (hn : headers.Nodup) (hnm : "Name" ∈ headers)
    (hlen : cells.length = headers.length) :
    ∃ out mult rem, inspectRow headers fix cells inputs = .ok (out, mult, rem) ∧
      out.length = cells.length := by
  obtain ⟨out, mult2, rem, hfold, hlen2⟩ :=
    inspectFold_ok headers (headers.filter matchEmail) fix hnm (cells.map some) false inputs
      (hn.filter _)
      (fun f hf => (List.mem_filter.mp hf).1)
      (by simpa using hlen)
      (fun f hf => by
        have hif : headers.indexOf f < headers.length :=
          List.indexOf_lt_length.mpr ((List.mem_filter.mp hf).1)
        have hic : headers.indexOf f < cells.length := by omega
        exact ⟨cells[headers.indexOf f], by
          rw [List.getElem?_map, List.getElem?_eq_getElem hic]; rfl⟩)
  exact ⟨out, mult2, rem, hfold, by simpa using hlen2⟩

theorem inspectRun_ok (headers : List String) (fix : Bool) (rows : List (List String))
    (hn : headers.Nodup) (hnm : "Name" ∈ headers)
    (hrows : ∀ r ∈ rows, r.length = headers.length) :
    ∀ inputs acc,
    ∃ out rem,
      rows.foldlM
        (fun acc row => do
          let r ← inspectRow headers fix row acc.2
          Except.ok (acc.1 ++ [r.1], r.2.2))
        (acc, inputs) = .ok (out, rem) ∧ out.length = acc.length + rows.length := by
  induction rows with
  | nil => intro inputs acc; exact ⟨acc, inputs, rfl, rfl⟩
  | cons row rs ih =>
    intro inputs acc
    obtain ⟨o1, m1, r1, hrow, _⟩ :=
      inspectRow_ok headers fix row inputs hn hnm (hrows row (List.mem_cons_self row rs))
    obtain ⟨out, rem, hfold, hlen⟩ :=
      ih (fun r hr => hrows r (List.mem_cons_of_mem row hr)) r1 (acc ++ [o1])
    refine ⟨out, rem, ?_, ?_⟩
    · rw [List.foldlM_cons, hrow]
      exact hfold
    · rw [hlen]
      simp [List.length_append]
      omega

/-! ## Claim C7 -/

/-- Claim C7: exhausting the interactive input (the `EOFError` abort) stops a
row's reconciliation at the point reached: the kept values are exactly the
keep-decisions made on the decided prefix (`emails.zip inputs`), every
not-yet-decided value is discarded, no input remains for later prompts, and
the overall fix loop still processes every row of the table rather than
terminating the run, for tables that carry the `Name` header the prompt
interpolates. -/
theorem C7_abort_semantics :
    (∀ inputs emails : List String,
      (reviewEmails inputs emails).1 =
        (emails.zip inputs).filterMap
          (fun p => if pyStrip p.2.toList = ['y'] then some p.1 else none)) ∧
    (∀ inputs emails : List String, inputs.length < emails.length →
      (reviewEmails inputs emails).2 = []) ∧
    (∀ (headers : List String) (rows : List (List String)) (inputs : List String),
      headers.Nodup → "Name" ∈ headers → (∀ r ∈ rows, r.length = headers.length) →
      ∃ out rem, inspectRun headers true rows inputs = .ok (out, rem) ∧
        out.length = rows.length) :=
  ⟨reviewEmails_kept,
   fun _ _ h => reviewEmails_leftover h,
   fun headers rows inputs hn hnm hr => by
     obtain ⟨out, rem, hfold, hlen⟩ := inspectRun_ok headers true rows hn hnm hr inputs []
     exact ⟨out, rem, hfold, by simpa using hlen⟩⟩

/-- Witness for claim C7: one `y` answer then end of input keeps `a`, discards
`b` and `c`, leaves no input, and a two-row run over a table with a `Name`
header still rewrites both rows. -/
theorem C7_abort_semantics_witness :
    (reviewEmails ["y"] ["a", "b", "c"]).1 =
      ((["a", "b", "c"] : List String).zip ["y"]).filterMap
        (fun p => if pyStrip p.2.toList = ['y'] then some p.1 else none) ∧
    (reviewEmails ["y"] ["a", "b", "c"]).2 = [] ∧
    (∃ out rem,
      inspectRun ["Name", "E-mail 1 - Value"] true
        [["ann", "a ::: b ::: c"], ["bob", "d:::e"]] ["y"] =
        .ok (out, rem) ∧ out.length = 2) :=
  ⟨C7_abort_semantics.1 ["y"] ["a", "b", "c"],
   C7_abort_semantics.2.1 ["y"] ["a", "b", "c"] (by decide),
   C7_abort_semantics.2.2 ["Name", "E-mail 1 - Value"]
     [["ann", "a ::: b ::: c"], ["bob", "d:::e"]] ["y"]
     (by decide) (by decide) (by decide)⟩

/-! ## Claim C6 -/

/-- Claim C6 counterexample: the cell `a:::` splits into the parts `a` and the
empty string, so it has only one non-trivial part, yet fix mode does not
leave it untouched: with no reviewer input the cell is rewritten to the
explicit no-value marker. -/
theorem C6_counterexample :
    (splitEmails "a:::").filter (fun e => e ≠ "") = ["a"] ∧
    inspectCell true "a:::" [] = ((none, true), []) ∧
    (inspectCell true "a:::" []).1.1 ≠ some "a:::" :=
  ⟨by decide, by decide, by decide⟩

/-- Claim C6 (amended): the multi-value test counts every part of the split on
the join token, empty parts included, not only the non-trivial ones: a cell
with fewer than two parts is untouched in either mode, and a cell with two or
more parts is rewritten in fix mode to the kept values rejoined with the join
token when at least one value was kept, and to the explicit no-value marker
when none was kept. -/
theorem C6_email_cell :
    (∀ (fix : Bool) (cell : String) (inputs : List String),
      (splitEmails cell).length < 2 →
      inspectCell fix cell inputs = ((some cell, false), inputs)) ∧
    (∀ (cell : String) (inputs : List String),
      2 ≤ (splitEmails cell).length →
      inspectCell true cell inputs =
        (if (reviewEmails inputs (splitEmails cell)).1.length ≠ 0 then
           (some (joinColons (reviewEmails inputs (splitEmails cell)).1), true)
         else (none, true),
         (reviewEmails inputs (splitEmails cell)).2)) := by
  constructor
  · intro fix cell inputs h
    rw [inspectCell, if_pos h]
  · intro cell inputs h
    rw [inspectCell, if_neg (by omega), if_neg (by decide)]
    by_cases hk : (reviewEmails inputs (splitEmails cell)).1.length ≠ 0
    · rw [if_pos hk, if_pos hk]
    · rw [if_neg hk, if_neg hk]

/-- Witness for the amended claim C6: a single-part cell is untouched; a
three-part cell with one `y` answer is rewritten to the kept value. -/
theorem C6_email_cell_witness :
    inspectCell true "a@x.com" ["y"] = ((some "a@x.com", false), ["y"]) ∧
    inspectCell true "a ::: b ::: c" ["y"] =
      (if (reviewEmails ["y"] (splitEmails "a ::: b ::: c")).1.length ≠ 0 then
         (some (joinColons (reviewEmails ["y"] (splitEmails "a ::: b ::: c")).1), true)
       else (none, true),
       (reviewEmails ["y"] (splitEmails "a ::: b ::: c")).2) :=
  ⟨C6_email_cell.1 true "a@x.com" ["y"] (by decide),
   C6_email_cell.2 "a ::: b ::: c" ["y"] (by decide)⟩

/-! ## Claim C8 (amended) -/

theorem indexOf_append_of_mem {α : Type} [DecidableEq α] {k : α} {l : List α}
    (h : k ∈ l) (t : List α) : (l ++ t).indexOf k = l.indexOf k := by
  induction l with
  | nil => simp at h
  | cons a as ih =>
    by_cases hk : a = k
    · subst hk
      rw [List.cons_append, List.indexOf_cons_self, List.indexOf_cons_self]
    · have hmem : k ∈ as := by
        rcases List.mem_cons.mp h with h1 | h2
        · exact absurd h1.symm hk
        · exact h2
      rw [List.cons_append, List.indexOf_cons_ne _ hk, List.indexOf_cons_ne _ hk, ih hmem]

/-- Claim C8 (amended): in keep-both mode a duplicate row is appended as an
independent row while its identity key is appended to the seen-key tuple
again (one entry per appended row, so a colliding key appears several times);
because lookups take the first occurrence, the appended entry leaves the
lookup position unchanged, and a merge-mode run folds such a duplicate into
the first-seen row's position. -/
theorem C8_keep_both (headers row : List String) (st : PState)
    (cells tags : List String) (nameCell : String)
    (hnorm : normalizeRow headers row = .ok (cells, tags))
    (hmem : "Name" ∈ headers)
    (hget : getCell cells (headers.indexOf "Name") = .ok nameCell)
    (hne : format_index nameCell ≠ "")
    (hdup : format_index nameCell ∈ st.hash)
    (hlen : cells.length = headers.length) :
    processRow headers false false row st =
      .ok ⟨st.hash ++ [format_index nameCell], st.rows ++ [(cells, tags)]⟩ ∧
    (st.hash ++ [format_index nameCell]).indexOf (format_index nameCell) =
      st.hash.indexOf (format_index nameCell) ∧
    (∀ dst merged,
      getRow st.rows (st.hash.indexOf (format_index nameCell)) = .ok dst →
      merge_lists cells dst.1 = .ok merged →
      merged.length = headers.length →
      processRow headers false true row st =
        .ok ⟨st.hash, st.rows.set (st.hash.indexOf (format_index nameCell)) (merged, [])⟩) := by
  refine ⟨?_, indexOf_append_of_mem hdup _, ?_⟩
  · simp only [processRow, hnorm, except_bind_ok, findHeader, if_pos hmem, hget,
      if_neg hne, if_pos hdup]
    simp [hlen]
  · intro dst merged hdst hmerge hmlen
    simp only [processRow, hnorm, except_bind_ok, findHeader, if_pos hmem, hget,
      if_neg hne, if_pos hdup, hdst, hmerge, if_pos hmlen]
    simp

/-- Witness for the amended claim C8 at a concrete duplicate of `Ann`. -/
theorem C8_keep_both_witness :
    processRow ["Name"] false false ["ann"] ⟨["ann"], [(["Ann"], ["name"])]⟩ =
      .ok ⟨["ann", "ann"], [(["Ann"], ["name"]), (["Ann"], ["name"])]⟩ ∧
    (["ann", "ann"] : List String).indexOf "ann" = (["ann"] : List String).indexOf "ann" ∧
    processRow ["Name"] false true ["ann"] ⟨["ann"], [(["Ann"], ["name"])]⟩ =
      .ok ⟨["ann"], [(["Ann"], [])]⟩ := by
  have h := C8_keep_both ["Name"] ["ann"] ⟨["ann"], [(["Ann"], ["name"])]⟩
    ["Ann"] ["name"] "Ann" (by decide) (by decide) (by decide) (by decide) (by decide)
    (by decide)
  refine ⟨h.1, h.2.1, ?_⟩
  have h3 := h.2.2 (["Ann"], ["name"]) ["Ann"] (by decide) (by decide) (by decide)
  exact h3

/-! ## Claim C5 -/

/-- Claim C5: the Filter Engine keeps exactly the rows whose tag set
intersects the requested tags (OR semantics) — every kept row carries at
least one requested tag, every excluded row carries none — and the output is
a sublist of the input, so the original row order is preserved. -/
theorem C5_filter_engine :
    (∀ (filters : List String) (rows : List (List String × List String))
       (r : List String × List String),
      r ∈ filterRows filters rows ↔ r ∈ rows ∧ ∃ t ∈ r.2, t ∈ filters) ∧
    (∀ (filters : List String) (rows : List (List String × List String)),
      (filterRows filters rows).Sublist rows) := by
  constructor
  · intro filters rows r
    simp [filterRows, List.mem_filter, List.any_eq_true]
  · intro filters rows
    exact List.filter_sublist _

/-! ## zipWith helpers for the per-row characterization -/

theorem zipWith_getElem_some {α β γ : Type} (f : α → β → γ) (l1 : List α) (l2 : List β)
    (j : Nat) (h1 : j < l1.length) (h2 : j < l2.length) :
    (List.zipWith f l1 l2)[j]? = some (f l1[j] l2[j]) := by
  rw [List.getElem?_zipWith, List.getElem?_eq_getElem h1, List.getElem?_eq_getElem h2]

theorem zipWith_getElem_none {α β γ : Type} (f : α → β → γ) (l1 : List α) (l2 : List β)
    (j : Nat) (h : l1.length ≤ j ∨ l2.length ≤ j) :
    (List.zipWith f l1 l2)[j]? = none := by
  rw [List.getElem?_eq_none]
  rw [List.length_zipWith]
  rcases h with h | h
  · omega
  · omega

theorem zipWith_snd_of_length {α β : Type} (l1 : List α) (l2 : List β)
    (h : l2.length = l1.length) :
    List.zipWith (fun _ c => c) l1 l2 = l2 := by
  induction l1 generalizing l2 with
  | nil => cases l2 with
    | nil => rfl
    | cons b bs => simp at h
  | cons a as ih =>
    cases l2 with
    | nil => simp at h
    | cons b bs =>
      rw [List.zipWith_cons_cons, ih bs (by simpa using h)]

theorem zipWith_zipWith_same {α β γ δ : Type} (f : α → γ → δ) (g : α → β → γ)
    (l1 : List α) (l2 : List β) :
    List.zipWith f l1 (List.zipWith g l1 l2) =
      List.zipWith (fun a b => f a (g a b)) l1 l2 := by
  induction l1 generalizing l2 with
  | nil => rfl
  | cons a as ih =>
    cases l2 with
    | nil => rfl
    | cons b bs => rw [List.zipWith_cons_cons, List.zipWith_cons_cons,
        List.zipWith_cons_cons, ih bs]

theorem zipWith_congr_mem {α β γ : Type} (f g : α → β → γ) (l1 : List α) (l2 : List β)
    (h : ∀ a ∈ l1, ∀ b, f a b = g a b) :
    List.zipWith f l1 l2 = List.zipWith g l1 l2 := by
  induction l1 generalizing l2 with
  | nil => rfl
  | cons a as ih =>
    cases l2 with
    | nil => rfl
    | cons b bs =>
      rw [List.zipWith_cons_cons, List.zipWith_cons_cons,
        h a (List.mem_cons_self a as) b,
        ih bs (fun x hx => h x (List.mem_cons_of_mem a hx))]

theorem zipWith_cond_cons_set (headers : List String) (f : String) (fs : List String)
    (cells : List String) (t : String → String)
    (hn : headers.Nodup) (hmem : f ∈ headers) (hf : f ∉ fs)
    (hlen : cells.length = headers.length) :
    List.zipWith (fun h c => if h ∈ f :: fs then t c else c) headers cells =
    List.zipWith (fun h c => if h ∈ fs then t c else c) headers
      (cells.set (headers.indexOf f) (t (cells.getD (headers.indexOf f) ""))) := by
  have hih : headers.indexOf f < headers.length := List.indexOf_lt_length.mpr hmem
  have hic : headers.indexOf f < cells.length := by omega
  apply List.ext_getElem?
  intro j
  by_cases hj : j < headers.length
  · have hjc : j < cells.length := by omega
    have hjs : j < (cells.set (headers.indexOf f) (t (cells.getD (headers.indexOf f) ""))).length := by
      simpa using hjc
    rw [zipWith_getElem_some _ _ _ j hj hjc, zipWith_getElem_some _ _ _ j hj hjs]
    by_cases hji : j = headers.indexOf f
    · subst hji
      have hhf : headers[headers.indexOf f] = f := List.getElem_indexOf hih
      rw [hhf, if_pos (List.mem_cons_self f fs), if_neg hf, List.getElem_set_self hjs,
        List.getD_eq_getElem?_getD, List.getElem?_eq_getElem hjc, Option.getD_some]
    · have hset : (cells.set (headers.indexOf f) (t (cells.getD (headers.indexOf f) "")))[j] =
          cells[j] := by
        rw [List.getElem_set_ne (fun hh => hji hh.symm)]
      rw [hset]
      have hhj : headers[j] ≠ f := by
        intro hh
        have : headers[j] = headers[headers.indexOf f] := by
          rw [hh, List.getElem_indexOf hih]
        exact hji (hn.getElem_inj_iff.mp this)
      by_cases hm : headers[j] ∈ fs
      · rw [if_pos (List.mem_cons_of_mem f hm), if_pos hm]
      · rw [if_neg (by
          intro hcon
          rcases List.mem_cons.mp hcon with h1 | h2
          · exact hhj h1
          · exact hm h2), if_neg hm]
  · rw [zipWith_getElem_none _ _ _ j (Or.inl (by omega)),
      zipWith_getElem_none _ _ _ j (Or.inl (by omega))]

/-! ## Stage characterizations of the per-row pass -/

theorem foldW_char (headers : List String) (v : String) :
    ∀ (fields cells : List String),
    headers.Nodup → fields.Nodup → (∀ f ∈ fields, f ∈ headers) →
    cells.length = headers.length →
    fields.foldlM (fun cs f => setCell cs (headers.indexOf f) v) cells =
      .ok (List.zipWith (fun h c => if h ∈ fields then v else c) headers cells) := by
  intro fields
  induction fields with
  | nil =>
    intro cells hn _ _ hlen
    rw [List.foldlM_nil]
    rw [zipWith_congr_mem _ (fun _ c => c) headers cells (by intro a _ b; simp),
      zipWith_snd_of_length _ _ hlen]
    rfl
  | cons f fs ih =>
    intro cells hn hnd hsub hlen
    have hih : headers.indexOf f < headers.length :=
      List.indexOf_lt_length.mpr (hsub f (List.mem_cons_self f fs))
    have hic : headers.indexOf f < cells.length := by omega
    have hstep : setCell cells (headers.indexOf f) v = .ok (cells.set (headers.indexOf f) v) := by
      rw [setCell, if_pos hic]
    have hmain := ih (cells.set (headers.indexOf f) v) hn (List.Nodup.of_cons hnd)
      (fun g hg => hsub g (List.mem_cons_of_mem f hg)) (by simpa using hlen)
    rw [List.foldlM_cons, hstep]
    exact (except_bind_ok _ _).trans (hmain.trans (congrArg Except.ok
      (zipWith_cond_cons_set headers f fs cells (fun _ => v) hn
        (hsub f (List.mem_cons_self f fs)) (List.nodup_cons.mp hnd).1 hlen).symm))

theorem foldRW_char (headers : List String) (t : String → String) :
    ∀ (fields cells : List String),
    headers.Nodup → fields.Nodup → (∀ f ∈ fields, f ∈ headers) →
    cells.length = headers.length →
    fields.foldlM
      (fun cs f => do
        let c ← getCell cs (headers.indexOf f)
        setCell cs (headers.indexOf f) (t c)) cells =
      .ok (List.zipWith (fun h c => if h ∈ fields then t c else c) headers cells) := by
  intro fields
  induction fields with
  | nil =>
    intro cells hn _ _ hlen
    rw [List.foldlM_nil]
    rw [zipWith_congr_mem _ (fun _ c => c) headers cells (by intro a _ b; simp),
      zipWith_snd_of_length _ _ hlen]
    rfl
  | cons f fs ih =>
    intro cells hn hnd hsub hlen
    have hih : headers.indexOf f < headers.length :=
      List.indexOf_lt_length.mpr (hsub f (List.mem_cons_self f fs))
    have hic : headers.indexOf f < cells.length := by omega
    have hget : cells[headers.indexOf f]? = some (cells.getD (headers.indexOf f) "") := by
      rw [List.getElem?_eq_getElem hic, List.getD_eq_getElem?_getD,
        List.getElem?_eq_getElem hic, Option.getD_some]
    have hstep : (do
        let c ← getCell cells (headers.indexOf f)
        setCell cells (headers.indexOf f) (t c)) =
        Except.ok (cells.set (headers.indexOf f) (t (cells.getD (headers.indexOf f) ""))) := by
      rw [getCell, hget]
      exact (except_bind_ok _ _).trans (by rw [setCell, if_pos hic])
    have hmain := ih (cells.set (headers.indexOf f) (t (cells.getD (headers.indexOf f) ""))) hn
      (List.Nodup.of_cons hnd)
      (fun g hg => hsub g (List.mem_cons_of_mem f hg)) (by simpa using hlen)
    rw [List.foldlM_cons, hstep]
    exact (except_bind_ok _ _).trans (hmain.trans (congrArg Except.ok
      (zipWith_cond_cons_set headers f fs cells t hn
        (hsub f (List.mem_cons_self f fs)) (List.nodup_cons.mp hnd).1 hlen).symm))

theorem set_getD_self (l : List String) (i : Nat) (h : i < l.length) :
    l.set i (l.getD i "") = l := by
  apply List.ext_getElem?
  intro j
  by_cases hj : i = j
  · subst hj
    rw [List.getElem?_set_self (by omega), List.getD_eq_getElem?_getD,
      List.getElem?_eq_getElem h, Option.getD_some]
  · rw [List.getElem?_set_ne hj]

theorem getD_set_ne (l : List String) (i j : Nat) (v : String) (h : i ≠ j) :
    (l.set i v).getD j "" = l.getD j "" := by
  rw [List.getD_eq_getElem?_getD, List.getD_eq_getElem?_getD, List.getElem?_set_ne h]

theorem indexOf_ne_of_ne {g f : String} {headers : List String}
    (hg : g ∈ headers) (hf : f ∈ headers) (h : g ≠ f) :
    headers.indexOf g ≠ headers.indexOf f := by
  intro hii
  have hgl : headers.indexOf g < headers.length := List.indexOf_lt_length.mpr hg
  have hfl : headers.indexOf f < headers.length := List.indexOf_lt_length.mpr hf
  have e1 : headers[headers.indexOf g]? = some g := by
    rw [List.getElem?_eq_getElem hgl, List.getElem_indexOf hgl]
  have e2 : headers[headers.indexOf f]? = some f := by
    rw [List.getElem?_eq_getElem hfl, List.getElem_indexOf hfl]
  rw [hii, e2] at e1
  exact h (Option.some.inj e1.symm)

theorem getCell_getD (cells : List String) (i : Nat) (h : i < cells.length) :
    getCell cells i = .ok (cells.getD i "") := by
  rw [getCell, List.getElem?_eq_getElem h, List.getD_eq_getElem?_getD,
    List.getElem?_eq_getElem h, Option.getD_some]

theorem foldNC_char (headers tagl : List String) :
    ∀ (fields cells acc : List String),
    (∀ f ∈ fields, f ∈ headers) → cells.length = headers.length →
    ∃ tg,
      fields.foldlM
        (fun acc field => do
          let i := headers.indexOf field
          let c ← getCell acc.1 i
          if isBlank c then Except.ok acc
          else if (false : Bool) then do
            let c' ← evalFormatPhone c
            let cs' ← setCell acc.1 i c'
            Except.ok (cs', acc.2 ++ tagl)
          else Except.ok (acc.1, acc.2 ++ tagl))
        ((cells, acc) : List String × List String) = .ok (cells, tg) := by
  intro fields
  induction fields with
  | nil => intro cells acc _ _; exact ⟨acc, rfl⟩
  | cons f fs ih =>
    intro cells acc hsub hlen
    have hih : headers.indexOf f < headers.length :=
      List.indexOf_lt_length.mpr (hsub f (List.mem_cons_self f fs))
    have hic : headers.indexOf f < cells.length := by omega
    have hget := getCell_getD cells (headers.indexOf f) hic
    rw [List.foldlM_cons]
    by_cases hb : isBlank (cells.getD (headers.indexOf f) "") = true
    · obtain ⟨tg, hfold⟩ := ih cells acc (fun g hg => hsub g (List.mem_cons_of_mem f hg)) hlen
      refine ⟨tg, ?_⟩
      simp only [hget, except_bind_ok, if_pos hb]
      exact hfold
    · obtain ⟨tg, hfold⟩ := ih cells (acc ++ tagl)
        (fun g hg => hsub g (List.mem_cons_of_mem f hg)) hlen
      refine ⟨tg, ?_⟩
      simp only [hget, except_bind_ok, if_neg hb, Bool.false_eq_true, if_false]
      exact hfold

theorem foldCB_char (headers tagl : List String) :
    ∀ (fields cells acc : List String),
    headers.Nodup → fields.Nodup → (∀ f ∈ fields, f ∈ headers) →
    cells.length = headers.length →
    (∀ f ∈ fields, isBlank (cells.getD (headers.indexOf f) "") = false →
      evalFormatPhone (cells.getD (headers.indexOf f) "") =
        .ok (format_phone (cells.getD (headers.indexOf f) ""))) →
    ∃ tg,
      fields.foldlM
        (fun acc field => do
          let i := headers.indexOf field
          let c ← getCell acc.1 i
          if isBlank c then Except.ok acc
          else if (true : Bool) then do
            let c' ← evalFormatPhone c
            let cs' ← setCell acc.1 i c'
            Except.ok (cs', acc.2 ++ tagl)
          else Except.ok (acc.1, acc.2 ++ tagl))
        ((cells, acc) : List String × List String) =
        .ok (List.zipWith
          (fun h c => if h ∈ fields then (if isBlank c = true then c else format_phone c) else c)
          headers cells, tg) := by
  intro fields
  induction fields with
  | nil =>
    intro cells acc _ _ _ hlen _
    refine ⟨acc, ?_⟩
    rw [List.foldlM_nil]
    rw [zipWith_congr_mem _ (fun _ c => c) headers cells (by intro a _ b; simp),
      zipWith_snd_of_length _ _ hlen]
    rfl
  | cons f fs ih =>
    intro cells acc hn hnd hsub hlen hev
    have hmf : f ∈ headers := hsub f (List.mem_cons_self f fs)
    have hih : headers.indexOf f < headers.length := List.indexOf_lt_length.mpr hmf
    have hic : headers.indexOf f < cells.length := by omega
    have hget := getCell_getD cells (headers.indexOf f) hic
    have hcore := zipWith_cond_cons_set headers f fs cells
      (fun c => if isBlank c = true then c else format_phone c) hn hmf
      (List.nodup_cons.mp hnd).1 hlen
    rw [List.foldlM_cons]
    by_cases hb : isBlank (cells.getD (headers.indexOf f) "") = true
    · have hsetfix : cells.set (headers.indexOf f)
          ((fun c => if isBlank c = true then c else format_phone c)
            (cells.getD (headers.indexOf f) "")) = cells := by
        show cells.set (headers.indexOf f)
            (if isBlank (cells.getD (headers.indexOf f) "") = true
             then cells.getD (headers.indexOf f) ""
             else format_phone (cells.getD (headers.indexOf f) "")) = cells
        rw [if_pos hb]
        exact set_getD_self cells _ hic
      have hlist := hcore.trans (congrArg _ hsetfix)
      obtain ⟨tg, hfold⟩ := ih cells acc hn (List.Nodup.of_cons hnd)
        (fun g hg => hsub g (List.mem_cons_of_mem f hg)) hlen
        (fun g hg hgb => hev g (List.mem_cons_of_mem f hg) hgb)
      refine ⟨tg, ?_⟩
      simp only [hget, except_bind_ok, if_pos hb]
      exact hfold.trans (congrArg Except.ok (Prod.ext hlist.symm rfl))
    · have hb' : isBlank (cells.getD (headers.indexOf f) "") = false := by
        rcases hx : isBlank (cells.getD (headers.indexOf f) "") with _ | _
        · rfl
        · exact absurd hx hb
      have heval := hev f (List.mem_cons_self f fs) hb'
      have hsetfix : cells.set (headers.indexOf f)
          ((fun c => if isBlank c = true then c else format_phone c)
            (cells.getD (headers.indexOf f) "")) =
          cells.set (headers.indexOf f)
            (format_phone (cells.getD (headers.indexOf f) "")) := by
        show cells.set (headers.indexOf f)
            (if isBlank (cells.getD (headers.indexOf f) "") = true
             then cells.getD (headers.indexOf f) ""
             else format_phone (cells.getD (headers.indexOf f) "")) = _
        rw [if_neg (by rw [hb']; simp)]
      have hlist := hcore.trans (congrArg _ hsetfix)
      obtain ⟨tg, hfold⟩ :=
        ih (cells.set (headers.indexOf f) (format_phone (cells.getD (headers.indexOf f) "")))
          (acc ++ tagl) hn (List.Nodup.of_cons hnd)
          (fun g hg => hsub g (List.mem_cons_of_mem f hg))
          (by simpa using hlen)
          (fun g hg hgb => by
            have hgf : g ≠ f := by
              intro hgf
              exact (List.nodup_cons.mp hnd).1 (hgf ▸ hg)
            have hig := indexOf_ne_of_ne (hsub g (List.mem_cons_of_mem f hg)) hmf hgf
            rw [getD_set_ne _ _ _ _ (fun hh => hig hh.symm)] at hgb ⊢
            exact hev g (List.mem_cons_of_mem f hg) hgb)
      refine ⟨tg, ?_⟩
      simp only [hget, except_bind_ok, if_neg hb, heval, setCell, if_pos hic]
      exact hfold.trans (congrArg Except.ok (Prod.ext hlist.symm rfl))

/-! ## Stage corollaries in pattern form -/

theorem clean_fields_char (headers cells : List String) (pat : String → Bool)
    (hn : headers.Nodup) (hlen : cells.length = headers.length) :
    clean_fields headers pat cells =
      .ok (List.zipWith (fun h c => if pat h = true then "" else c) headers cells) := by
  have h1 := foldW_char headers "" (headers.filter pat) cells hn (hn.filter pat)
    (fun f hf => (List.mem_filter.mp hf).1) hlen
  have h2 : List.zipWith (fun h c => if h ∈ headers.filter pat then "" else c) headers cells =
      List.zipWith (fun h c => if pat h = true then "" else c) headers cells :=
    zipWith_congr_mem _ _ headers cells (by
      intro a ha b
      by_cases hp : pat a = true
      · rw [if_pos (List.mem_filter.mpr ⟨ha, hp⟩), if_pos hp]
      · rw [if_neg (fun hm => hp (List.mem_filter.mp hm).2), if_neg hp])
  exact h1.trans (congrArg Except.ok h2)

theorem format_names_char (headers cells : List String)
    (hn : headers.Nodup) (hlen : cells.length = headers.length) :
    format_names headers cells =
      .ok (List.zipWith (fun h c => if matchAnyName h = true then pyTitle c else c)
        headers cells) := by
  have h1 := foldRW_char headers pyTitle (headers.filter matchAnyName) cells hn
    (hn.filter matchAnyName) (fun f hf => (List.mem_filter.mp hf).1) hlen
  have h2 : List.zipWith (fun h c => if h ∈ headers.filter matchAnyName then pyTitle c else c)
      headers cells =
      List.zipWith (fun h c => if matchAnyName h = true then pyTitle c else c) headers cells :=
    zipWith_congr_mem _ _ headers cells (by
      intro a ha b
      by_cases hp : matchAnyName a = true
      · rw [if_pos (List.mem_filter.mpr ⟨ha, hp⟩), if_pos hp]
      · rw [if_neg (fun hm => hp (List.mem_filter.mp hm).2), if_neg hp])
  exact h1.trans (congrArg Except.ok h2)

theorem has_fields_nc_char (headers cells : List String) (pat : String → Bool)
    (tagl : List String) (hlen : cells.length = headers.length) :
    ∃ tg, has_fields headers (headers.filter pat) tagl false cells = .ok (cells, tg) :=
  foldNC_char headers tagl (headers.filter pat) cells []
    (fun _f hf => (List.mem_filter.mp hf).1) hlen

theorem has_fields_cb_char (headers cells : List String) (pat : String → Bool)
    (tagl : List String) (hn : headers.Nodup) (hlen : cells.length = headers.length)
    (hev : ∀ f ∈ headers.filter pat,
      isBlank (cells.getD (headers.indexOf f) "") = false →
      evalFormatPhone (cells.getD (headers.indexOf f) "") =
        .ok (format_phone (cells.getD (headers.indexOf f) ""))) :
    ∃ tg, has_fields headers (headers.filter pat) tagl true cells =
      .ok (List.zipWith
        (fun h c => if pat h = true then (if isBlank c = true then c else format_phone c) else c)
        headers cells, tg) := by
  obtain ⟨tg, h1⟩ := foldCB_char headers tagl (headers.filter pat) cells []
    hn (hn.filter pat) (fun f hf => (List.mem_filter.mp hf).1) hlen hev
  have h2 : List.zipWith (fun h c => if h ∈ headers.filter pat then
        (if isBlank c = true then c else format_phone c) else c) headers cells =
      List.zipWith (fun h c => if pat h = true then
        (if isBlank c = true then c else format_phone c) else c) headers cells :=
    zipWith_congr_mem _ _ headers cells (by
      intro a ha b
      by_cases hp : pat a = true
      · rw [if_pos (List.mem_filter.mpr ⟨ha, hp⟩), if_pos hp]
      · rw [if_neg (fun hm => hp (List.mem_filter.mp hm).2), if_neg hp])
  exact ⟨tg, h1.trans (congrArg Except.ok (Prod.ext h2 rfl))⟩

/-! ## Pattern disjointness and cleanliness preservation -/

theorem isPrefixOf_head_eq {a b : Char} {as bs l : List Char}
    (ha : (a :: as).isPrefixOf l = true) (hb : (b :: bs).isPrefixOf l = true) : a = b := by
  cases l with
  | nil => simp [List.isPrefixOf] at ha
  | cons c cs =>
    simp only [List.isPrefixOf, Bool.and_eq_true, beq_iff_eq] at ha hb
    rw [ha.1, hb.1]

theorem noise_phone_disjoint (h : String) (hp : matchPhone h = true) :
    noiseHeader h = false := by
  have hpre : ("Phone ".toList).isPrefixOf h.toList = true := by
    have := hp
    rw [matchPhone, matchNumberedValue, Bool.and_eq_true] at this
    exact this.1
  rcases hx : noiseHeader h with _ | _
  · rfl
  · exfalso
    rw [noiseHeader, List.any_eq_true] at hx
    obtain ⟨p, hpm, hpp⟩ := hx
    have : p.toList.isPrefixOf h.toList = true := hpp
    fin_cases hpm <;> exact absurd (isPrefixOf_head_eq this hpre) (by decide)

theorem cleanChar_toUpper (c : Char) : cleanChar c.toUpper = cleanChar c := by
  simp only [cleanChar, char_beq_iff_toNat, toNat_toUpper]
  split_ifs with h
  · have h34 : ('"' : Char).toNat = 34 := rfl
    have h92 : ('\\' : Char).toNat = 92 := rfl
    have h10 : ('\n' : Char).toNat = 10 := rfl
    have h13 : ('\r' : Char).toNat = 13 := rfl
    rw [h34, h92, h10, h13]
    have e1 : (c.toNat - 32 == 34) = false := by simp only [beq_eq_false_iff_ne, ne_eq]; omega
    have e2 : (c.toNat - 32 == 92) = false := by simp only [beq_eq_false_iff_ne, ne_eq]; omega
    have e3 : (c.toNat - 32 == 10) = false := by simp only [beq_eq_false_iff_ne, ne_eq]; omega
    have e4 : (c.toNat - 32 == 13) = false := by simp only [beq_eq_false_iff_ne, ne_eq]; omega
    have f1 : (c.toNat == 34) = false := by simp only [beq_eq_false_iff_ne, ne_eq]; omega
    have f2 : (c.toNat == 92) = false := by simp only [beq_eq_false_iff_ne, ne_eq]; omega
    have f3 : (c.toNat == 10) = false := by simp only [beq_eq_false_iff_ne, ne_eq]; omega
    have f4 : (c.toNat == 13) = false := by simp only [beq_eq_false_iff_ne, ne_eq]; omega
    rw [e1, e2, e3, e4, f1, f2, f3, f4]
  · rfl

theorem cleanChar_toLower (c : Char) : cleanChar c.toLower = cleanChar c := by
  simp only [cleanChar, char_beq_iff_toNat, toNat_toLower]
  split_ifs with h
  · have h34 : ('"' : Char).toNat = 34 := rfl
    have h92 : ('\\' : Char).toNat = 92 := rfl
    have h10 : ('\n' : Char).toNat = 10 := rfl
    have h13 : ('\r' : Char).toNat = 13 := rfl
    rw [h34, h92, h10, h13]
    have e1 : (c.toNat + 32 == 34) = false := by simp only [beq_eq_false_iff_ne, ne_eq]; omega
    have e2 : (c.toNat + 32 == 92) = false := by simp only [beq_eq_false_iff_ne, ne_eq]; omega
    have e3 : (c.toNat + 32 == 10) = false := by simp only [beq_eq_false_iff_ne, ne_eq]; omega
    have e4 : (c.toNat + 32 == 13) = false := by simp only [beq_eq_false_iff_ne, ne_eq]; omega
    have f1 : (c.toNat == 34) = false := by simp only [beq_eq_false_iff_ne, ne_eq]; omega
    have f2 : (c.toNat == 92) = false := by simp only [beq_eq_false_iff_ne, ne_eq]; omega
    have f3 : (c.toNat == 10) = false := by simp only [beq_eq_false_iff_ne, ne_eq]; omega
    have f4 : (c.toNat == 13) = false := by simp only [beq_eq_false_iff_ne, ne_eq]; omega
    rw [e1, e2, e3, e4, f1, f2, f3, f4]
  · rfl

theorem titleL_clean {l : List Char} (h : ∀ c ∈ l, cleanChar c = true) :
    ∀ b, ∀ c ∈ titleL b l, cleanChar c = true := by
  induction l with
  | nil => intro b c hc; simp [titleL] at hc
  | cons d ds ih =>
    intro b c hc
    have hd := h d (List.mem_cons_self d ds)
    have hds := fun x hx => h x (List.mem_cons_of_mem d hx)
    by_cases ha : d.isAlpha = true
    · simp only [titleL, ha, if_true] at hc
      rcases List.mem_cons.mp hc with h1 | h2
      · rcases b with _ | _
        · simp only [Bool.false_eq_true, if_false] at h1
          rw [h1, cleanChar_toUpper]
          exact hd
        · simp only [if_true] at h1
          rw [h1, cleanChar_toLower]
          exact hd
      · exact ih hds true c h2
    · simp only [titleL, ha, Bool.false_eq_true, if_false] at hc
      rcases List.mem_cons.mp hc with h1 | h2
      · rw [h1]; exact hd
      · exact ih hds false c h2

theorem pyTitle_clean {s : String} (h : cleanStr s = true) : cleanStr (pyTitle s) = true := by
  rw [cleanStr, List.all_eq_true] at h ⊢
  rw [pyTitle, toList_asString]
  exact titleL_clean h false

theorem mem_spaceColons {c : Char} {l : List Char} (h : c ∈ spaceColons l) :
    c ∈ l ∨ c = ' ' ∨ c = ':' := by
  induction l using spaceColons.induct with
  | case1 rest ih =>
    simp only [spaceColons, List.mem_cons] at h
    rcases h with h | h | h | h | h | h
    · exact Or.inr (Or.inl h)
    · exact Or.inr (Or.inr h)
    · exact Or.inr (Or.inr h)
    · exact Or.inr (Or.inr h)
    · exact Or.inr (Or.inl h)
    · rcases ih h with h2 | h2
      · exact Or.inl (by simp [h2])
      · exact Or.inr h2
  | case2 d rest hne ih =>
    simp only [spaceColons, List.mem_cons] at h
    rcases h with h | h
    · exact Or.inl (by simp [h])
    · rcases ih h with h2 | h2
      · exact Or.inl (by simp [h2])
      · exact Or.inr h2
  | case3 => exact Or.inl h

theorem formatPhoneL_clean {l : List Char} (h : ∀ c ∈ l, cleanChar c = true) :
    ∀ c ∈ formatPhoneL l, cleanChar c = true := by
  intro c hc
  rcases mem_spaceColons hc with h1 | h1 | h1
  · rcases mem_replaceColons0 h1 with h2 | h2 | h2 | h2
    · rcases mem_subLeadingZero h2 with h3 | h3 | h3
      · exact h c ((List.mem_filter.mp h3).1)
      · rw [h3]; rfl
      · rw [h3]; rfl
    · rw [h2]; rfl
    · rw [h2]; rfl
    · rw [h2]; rfl
  · rw [h1]; rfl
  · rw [h1]; rfl

theorem format_phone_clean {s : String} (h : cleanStr s = true) :
    cleanStr (format_phone s) = true := by
  rw [cleanStr, List.all_eq_true] at h ⊢
  rw [format_phone, toList_asString]
  exact formatPhoneL_clean h

theorem cellPass_clean {h c : String} (hc : cleanStr c = true) :
    cleanStr (cellPass h c) = true := by
  have h1 : cleanStr (if noiseHeader h = true then "" else c) = true := by
    split
    · rfl
    · exact hc
  have h2 : cleanStr (if matchAnyName h = true then
      pyTitle (if noiseHeader h = true then "" else c)
      else (if noiseHeader h = true then "" else c)) = true := by
    split
    · exact pyTitle_clean h1
    · exact h1
  simp only [cellPass]
  by_cases hph : matchPhone h = true ∧ isBlank (if matchAnyName h = true then
      pyTitle (if noiseHeader h = true then "" else c)
      else (if noiseHeader h = true then "" else c)) = false
  · rw [if_pos hph]
    exact format_phone_clean h2
  · rw [if_neg hph]
    exact h2

theorem zipWith_getD_lt (f : String → String → String) (l1 l2 : List String) (i : Nat)
    (h1 : i < l1.length) (h2 : i < l2.length) :
    (List.zipWith f l1 l2).getD i "" = f (l1.getD i "") (l2.getD i "") := by
  rw [List.getD_eq_getElem?_getD, zipWith_getElem_some _ _ _ i h1 h2, Option.getD_some,
    List.getD_eq_getElem?_getD, List.getElem?_eq_getElem h1, Option.getD_some,
    List.getD_eq_getElem?_getD, List.getElem?_eq_getElem h2, Option.getD_some]

/-- The per-row pass of `parse`, characterized column by column: on a
duplicate-free header list whose row has the right arity and whose cells
cannot disturb the interpolated `eval` (no quote, backslash or line break),
and when no phone-pattern header also matches the name pattern,
`normalizeRow` succeeds and transforms every column by `cellPass`. -/
theorem normalizeRow_char (headers cells : List String)
    (hn : headers.Nodup) (hlen : cells.length = headers.length)
    (H1 : ∀ h ∈ headers, matchPhone h = true → matchAnyName h = false)
    (H2 : ∀ c ∈ cells, cleanStr c = true) :
    ∃ tg, normalizeRow headers cells =
      .ok (List.zipWith cellPass headers cells, tg) := by
  have hc1 := clean_fields_char headers cells noiseHeader hn hlen
  have hlen1 : (List.zipWith (fun h c => if noiseHeader h = true then "" else c)
      headers cells).length = headers.length := by
    rw [List.length_zipWith]
    omega
  have hc2 := format_names_char headers
    (List.zipWith (fun h c => if noiseHeader h = true then "" else c) headers cells) hn hlen1
  rw [zipWith_zipWith_same] at hc2
  have hlen2 : (List.zipWith (fun h c => if matchAnyName h = true then
      pyTitle (if noiseHeader h = true then "" else c)
      else (if noiseHeader h = true then "" else c)) headers cells).length = headers.length := by
    rw [List.length_zipWith]
    omega
  set c2val := List.zipWith (fun h c => if matchAnyName h = true then
      pyTitle (if noiseHeader h = true then "" else c)
      else (if noiseHeader h = true then "" else c)) headers cells with hc2val
  obtain ⟨tg1, hr1⟩ := has_fields_nc_char headers c2val matchName ["name"] hlen2
  have hev : ∀ f ∈ headers.filter matchPhone,
      isBlank (c2val.getD (headers.indexOf f) "") = false →
      evalFormatPhone (c2val.getD (headers.indexOf f) "") =
        .ok (format_phone (c2val.getD (headers.indexOf f) "")) := by
    intro f hf _
    have hfm : f ∈ headers := (List.mem_filter.mp hf).1
    have hfp : matchPhone f = true := (List.mem_filter.mp hf).2
    have hih : headers.indexOf f < headers.length := List.indexOf_lt_length.mpr hfm
    have hic : headers.indexOf f < cells.length := by omega
    have hgv : c2val.getD (headers.indexOf f) "" = cells.getD (headers.indexOf f) "" := by
      rw [hc2val, zipWith_getD_lt _ _ _ _ hih hic]
      have hhf : headers.getD (headers.indexOf f) "" = f := by
        rw [List.getD_eq_getElem?_getD, List.getElem?_eq_getElem hih, Option.getD_some,
          List.getElem_indexOf hih]
      rw [hhf, H1 f hfm hfp, noise_phone_disjoint f hfp]
      simp
    rw [hgv]
    apply evalFormatPhone_clean
    have : cells.getD (headers.indexOf f) "" ∈ cells := by
      rw [List.getD_eq_getElem?_getD, List.getElem?_eq_getElem hic, Option.getD_some]
      exact List.getElem_mem hic
    exact H2 _ this
  obtain ⟨tg2, hr2⟩ := has_fields_cb_char headers c2val matchPhone ["phone"] hn hlen2 hev
  refine ⟨(tg1 ++ tg2).dedup, ?_⟩
  rw [normalizeRow, hc1, except_bind_ok, hc2, except_bind_ok, hr1, except_bind_ok,
    hr2, except_bind_ok]
  refine congrArg Except.ok (Prod.ext ?_ rfl)
  show List.zipWith _ headers c2val = _
  rw [hc2val, zipWith_zipWith_same]
  apply zipWith_congr_mem
  intro a _ b
  simp only [cellPass]
  generalize (if matchAnyName a = true then pyTitle (if noiseHeader a = true then "" else b)
      else if noiseHeader a = true then "" else b) = x
  by_cases hp : matchPhone a = true
  · by_cases hbk : isBlank x = true
    · rw [if_pos hp, if_pos hbk, if_neg (by simp [hbk])]
    · have hbf : isBlank x = false := by
        rcases h2 : isBlank x with _ | _
        · rfl
        · exact absurd h2 hbk
      rw [if_pos hp, if_neg hbk, if_pos ⟨hp, hbf⟩]
  · rw [if_neg hp, if_neg (by simp [hp])]

theorem pyTitle_empty : pyTitle "" = "" := rfl

theorem cellPass_idem (h c : String)
    (hd : ¬(matchPhone h = true ∧ matchAnyName h = true)) :
    cellPass h (cellPass h c) = cellPass h c := by
  by_cases hph : matchPhone h = true
  · have hname : matchAnyName h = false := by
      rcases hx : matchAnyName h with _ | _
      · rfl
      · exact absurd ⟨hph, hx⟩ hd
    have hnoise : noiseHeader h = false := noise_phone_disjoint h hph
    simp only [cellPass, hname, hnoise, Bool.false_eq_true, if_false]
    by_cases hbk : isBlank c = true
    · have hinner : (if matchPhone h = true ∧ isBlank c = false then format_phone c else c) = c :=
        if_neg (by simp [hbk])
      rw [hinner, hinner]
    · have hbf : isBlank c = false := by
        rcases h2 : isBlank c with _ | _
        · rfl
        · exact absurd h2 hbk
      have hinner : (if matchPhone h = true ∧ isBlank c = false then format_phone c else c) =
          format_phone c := if_pos ⟨hph, hbf⟩
      rw [hinner]
      by_cases hbk2 : isBlank (format_phone c) = true
      · rw [if_neg (by simp [hbk2])]
      · have hbf2 : isBlank (format_phone c) = false := by
          rcases h2 : isBlank (format_phone c) with _ | _
          · rfl
          · exact absurd h2 hbk2
        rw [if_pos ⟨hph, hbf2⟩, format_phone_idem]
  · have hneg : ∀ x : String,
        (if matchPhone h = true ∧ isBlank x = false then format_phone x else x) = x := by
      intro x
      apply if_neg
      rintro ⟨h1, -⟩
      exact hph h1
    simp only [cellPass, hneg]
    by_cases hnoise : noiseHeader h = true <;> by_cases hname : matchAnyName h = true <;>
      simp [hnoise, hname, pyTitle_empty, pyTitle_idem]

/-! ## Claim C4 -/

/-- Claim C4 counterexample: under the single header `Phone 1 - ValueName`,
which matches both the phone pattern and the name pattern, the cell `a b`
normalizes to `AB` (title-case, then the phone callback strips the space),
but normalizing that result gives `Ab` (title-casing the space-free value
lowercases the second letter), so applying the per-row pass twice differs
from applying it once. -/
theorem C4_counterexample :
    normalizeRow ["Phone 1 - ValueName"] ["a b"] = .ok (["AB"], ["phone"]) ∧
    normalizeRow ["Phone 1 - ValueName"] ["AB"] = .ok (["Ab"], ["phone"]) ∧
    (["AB"] : List String) ≠ ["Ab"] :=
  ⟨by decide, by decide, by decide⟩

/-- Claim C4 (amended): `format_phone` and the title-casing transform are
idempotent as functions, and the full per-row pass (cleanup, name casing,
phone formatting) is idempotent on every row whose headers are
duplicate-free, whose cell count matches the headers, whose phone-pattern
headers do not also match the name pattern, and whose cells contain no
double quote, backslash or line break (so the interpolated `eval` call is a
plain application): a second pass reproduces the first pass's cells. -/
theorem C4_normalizer_idempotent :
    (∀ s : String, format_phone (format_phone s) = format_phone s) ∧
    (∀ s : String, pyTitle (pyTitle s) = pyTitle s) ∧
    (∀ (headers cells out tags : List String),
      headers.Nodup → cells.length = headers.length →
      (∀ h ∈ headers, matchPhone h = true → matchAnyName h = false) →
      (∀ c ∈ cells, cleanStr c = true) →
      normalizeRow headers cells = .ok (out, tags) →
      ∃ tags2, normalizeRow headers out = .ok (out, tags2)) := by
  refine ⟨format_phone_idem, pyTitle_idem, ?_⟩
  intro headers cells out tags hn hlen H1 H2 hpass
  obtain ⟨tg, hchar⟩ := normalizeRow_char headers cells hn hlen H1 H2
  rw [hpass] at hchar
  have hpair : (out, tags) = (List.zipWith cellPass headers cells, tg) := by
    injection hchar
  have hout : out = List.zipWith cellPass headers cells := congrArg Prod.fst hpair
  have hlen2 : out.length = headers.length := by
    rw [hout, List.length_zipWith]
    omega
  have H2o : ∀ c ∈ out, cleanStr c = true := by
    intro c hc
    rw [hout] at hc
    obtain ⟨i, hi, hci⟩ := List.mem_iff_getElem.mp hc
    have hic : i < cells.length := by
      rw [List.length_zipWith] at hi
      omega
    rw [List.getElem_zipWith] at hci
    rw [← hci]
    exact cellPass_clean (H2 _ (List.getElem_mem hic))
  obtain ⟨tg2, hchar2⟩ := normalizeRow_char headers out hn hlen2 H1 H2o
  have hzz : List.zipWith cellPass headers out = out := by
    rw [hout, zipWith_zipWith_same]
    exact zipWith_congr_mem _ _ headers cells (by
      intro a ha b
      apply cellPass_idem
      rintro ⟨hp, hnm⟩
      rw [H1 a ha hp] at hnm
      exact Bool.false_ne_true hnm)
  exact ⟨tg2, by rw [hchar2, hzz]⟩

/-- Witness for the amended claim C4 at a concrete well-formed row. -/
theorem C4_normalizer_idempotent_witness :
    ∃ tags2, normalizeRow ["Name", "Phone 1 - Value"] [" Ann ", "+33601020304"] =
      .ok (([" Ann ", "+33601020304"] : List String), tags2) :=
  C4_normalizer_idempotent.2.2 ["Name", "Phone 1 - Value"] [" ann ", "0601020304"]
    [" Ann ", "+33601020304"] ["name", "phone"]
    (by decide) (by decide) (by decide) (by decide) (by decide)

end GContact
